import Mathlib

/-!
Shallow embedding of the YouTube-AI-Chat core: the ingestion pipeline
(transcript chunker, ingestion coordinator state machine, index embedding)
and the RAG pipeline (adaptive per-video retrieval budget, global re-ranking,
context assembly, citation rendering), translated from
`src/app/api/inngest/route.ts`, `src/app/api/chat/route.ts`,
`src/app/api/conversations/[conversationId]/export/route.ts`,
`src/app/_context/scope-context.tsx` and
`src/app/_components/citation-renderer.tsx`.

JavaScript numbers are modelled as rationals (`ℚ`); the numeric operations the
code performs (division by 1000, `Math.ceil`, `Math.floor`, `toFixed(1)`,
`parseFloat` on decimal literals) are exact on the values that occur here, so
the rational model is faithful. Strings are Lean `String`s, manipulated
through their character lists.
-/

/-- One decimal digit `d < 10` rendered as a character, as JavaScript's
number-to-string conversion produces it. -/
def digitChar (d : Nat) : Char := Char.ofNat (48 + d)

/-- Decimal rendering of a natural number as a character list: the model of a
JavaScript template interpolation of an integer, such as the segment-index
interpolation in the chunk path. -/
def natToChars (n : Nat) : List Char :=
  if _h : n < 10 then [digitChar n]
  else natToChars (n / 10) ++ [digitChar (n % 10)]
  decreasing_by exact Nat.div_lt_self (by omega) (by omega)

/-- Decimal rendering of a natural number as a `String`. -/
def natToStr (n : Nat) : String := (natToChars n).asString

/-- Value of a run of decimal digit characters, most significant first. -/
def charsToNat (l : List Char) : Nat :=
  l.foldl (fun acc c => 10 * acc + (c.toNat - 48)) 0

/-- Boolean prefix test on character lists. -/
def charsIsPrefix : List Char → List Char → Bool
  | [], _ => true
  | _ :: _, [] => false
  | a :: as, b :: bs => a = b && charsIsPrefix as bs

/-- Boolean contiguous-substring test on character lists. -/
def charsIsInfix (sub : List Char) : List Char → Bool
  | [] => charsIsPrefix sub []
  | x :: xs => charsIsPrefix sub (x :: xs) || charsIsInfix sub xs

/-- JavaScript `String.prototype.includes`: substring containment. -/
def jsIncludes (s sub : String) : Bool := charsIsInfix sub.data s.data

/-- JavaScript `String.prototype.split` with a single-character separator,
on character lists.  Always returns at least one (possibly empty) part. -/
def splitOnChar (c : Char) (l : List Char) : List (List Char) :=
  match l with
  | [] => [[]]
  | x :: xs =>
    match splitOnChar c xs with
    | [] => [[]]
    | h :: t => if x = c then [] :: h :: t else (x :: h) :: t

/-- JavaScript `Array.prototype.join(sep)`. -/
def jsJoin (sep : String) : List String → String
  | [] => ""
  | [x] => x
  | x :: y :: rest => x ++ sep ++ jsJoin sep (y :: rest)

/-- Model of `Math.floor` on a nonnegative JavaScript number, as a natural. -/
def floorNat (q : ℚ) : Nat := (Int.floor q).toNat

/-- Model of `Number.prototype.toFixed(1)` on a nonnegative number: the nearest
multiple of one tenth, ties rounded up (ECMA-262 picks the larger candidate),
rendered with exactly one fractional digit. -/
def jsToFixed1 (q : ℚ) : String :=
  let n : Nat := (Int.floor (q * 10 + 1 / 2)).toNat
  (natToChars (n / 10)).asString ++ "." ++ (natToChars (n % 10)).asString

/-- Model of `parseFloat` on a well-formed nonnegative decimal literal
`digits [. digits]`: exact rational value of the literal. -/
def parseDecimalChars (l : List Char) : ℚ :=
  let intPart := l.takeWhile (fun c => c.isDigit)
  let rest := l.dropWhile (fun c => c.isDigit)
  match rest with
  | [] => (charsToNat intPart : ℚ)
  | x :: frac =>
    if x = '.' then
      let fracDigits := frac.takeWhile (fun c => c.isDigit)
      (charsToNat intPart : ℚ) + (charsToNat fracDigits : ℚ) / (10 : ℚ) ^ fracDigits.length
    else (charsToNat intPart : ℚ)

/-- Model of `parseFloat` on a `String` (well-formed nonnegative decimal literals). -/
def parseDecimal (s : String) : ℚ := parseDecimalChars s.data

/-! ## Chunker (`chunkTranscript` in `src/app/api/inngest/route.ts`) -/

/-- A raw transcript segment from the acquisition adapter:
`{ text, offset, duration }` with times in milliseconds. -/
structure TranscriptSegment where
  text : String
  offset : ℚ
  duration : ℚ
deriving DecidableEq, Inhabited

/-- A chunked passage: `{ text, startTime, endTime, path }` with times in
seconds. -/
structure ChunkedParagraph where
  text : String
  startTime : ℚ
  endTime : ℚ
  path : String
deriving DecidableEq, Inhabited

/-- Function `getCollectionName` from the ingestion route. -/
def getCollectionName (videoId : String) : String := "video-" ++ videoId

/-- One iteration body of the chunking loop: build the passage for the
segment group starting at segment index `i`.  `segmentGroup[0]` is modelled
by `headI` and `segmentGroup[segmentGroup.length - 1]` by `getLastI`
(the group is nonempty at every call site). -/
def mkChunk (videoId : String) (i : Nat) (segmentGroup : List TranscriptSegment) :
    ChunkedParagraph :=
  let text := jsJoin " " (segmentGroup.map TranscriptSegment.text)
  let startTime := segmentGroup.headI.offset / 1000
  let lastSegment := segmentGroup.getLastI
  let endTime := (lastSegment.offset + lastSegment.duration) / 1000
  let path := videoId ++ "/chunk_" ++ natToStr i ++ "_" ++ jsToFixed1 startTime ++ "s.txt"
  { text := text, startTime := startTime, endTime := endTime, path := path }

/-- The `for (let i = 0; i < transcript.length; i += chunkSize)` loop of
`chunkTranscript`: `transcript.slice(i, i + chunkSize)` on the remaining
segments is the head plus the next `chunkSize - 1` elements. -/
def chunkGo (videoId : String) (chunkSize : Nat) (i : Nat) :
    List TranscriptSegment → List ChunkedParagraph
  | [] => []
  | seg :: rest =>
    mkChunk videoId i (seg :: rest.take (chunkSize - 1)) ::
      chunkGo videoId chunkSize (i + chunkSize) (rest.drop (chunkSize - 1))
  termination_by l => l.length
  decreasing_by simp [List.length_drop]; omega

/-- Function `chunkTranscript(transcript, videoId, chunkSize = 10)` from the ingestion route. -/
def chunkTranscript (transcript : List TranscriptSegment) (videoId : String)
    (chunkSize : Nat := 10) : List ChunkedParagraph :=
  chunkGo videoId chunkSize 0 transcript

/-! ## Ingestion coordinator (`ingestVideo` in `src/app/api/inngest/route.ts`,
`retryFailedVideo` in `src/app/_context/scope-context.tsx`) -/

/-- A thrown provider error as the coordinator reads it: a `message` and an
optional numeric `status` (the code reads a missing `status` as `0`). -/
structure JsError where
  message : String
  status : Nat := 0
deriving DecidableEq, Inhabited

/-- Result of the transcript acquisition adapter:
`{ transcript, title, thumbnailUrl }`. -/
structure YouTubeVideoData where
  transcript : List TranscriptSegment
  title : String
  thumbnailUrl : String
deriving DecidableEq, Inhabited

/-- The `status` column of the `videos` table. -/
inductive VideoStatus where
  | QUEUED
  | PROCESSING
  | READY
  | FAILED
deriving DecidableEq, Inhabited

/-- The slice of a `videos` row the coordinator reads and writes:
`status`, `failure_reason`, `title`, `thumbnail_url`. -/
structure VideoRow where
  status : VideoStatus
  failure_reason : Option String
  title : String
  thumbnail_url : String
deriving DecidableEq, Inhabited

/-- Outcomes of the external collaborators during one ingestion run:
the transcript fetch, the collection creation, the per-path document
insertion, and the final `READY` row update (`none` = no database error). -/
structure IngestEnv where
  fetchResult : Except JsError YouTubeVideoData
  createCollectionResult : Except JsError Unit
  addDocResult : String → Except JsError Unit
  updateReadyError : Option String

/-- The `embed-chunks` step loop: insert each chunk by path, treating an
error whose message includes `already exists` or whose status is `409` as an
already-inserted chunk to skip. -/
def embedChunksEnv (addDoc : String → Except JsError Unit) :
    List ChunkedParagraph → Except JsError Unit
  | [] => Except.ok ()
  | c :: rest =>
    match addDoc c.path with
    | Except.ok _ => embedChunksEnv addDoc rest
    | Except.error e =>
      if jsIncludes e.message ("already exists") || e.status == 409 then
        embedChunksEnv addDoc rest
      else Except.error e

/-- The body of the `try` block of `ingestVideo`: fetch, chunk (rejecting an
empty transcript and empty chunking output), create the collection (treating
`already exists` as success), embed the chunks, and perform the final status
update (whose database error is wrapped in a fresh `Error`). -/
def ingestTryBody (env : IngestEnv) (videoId : String) :
    Except JsError (YouTubeVideoData × List ChunkedParagraph) := do
  let videoData ← env.fetchResult
  if videoData.transcript.length = 0 then
    throw { message := "Cannot chunk empty transcript" }
  let chunks := chunkTranscript videoData.transcript videoId
  if chunks.length = 0 then
    throw { message := "Chunking produced no results" }
  (match env.createCollectionResult with
   | Except.ok _ => pure ()
   | Except.error e =>
     if jsIncludes e.message ("already exists") then pure () else throw e)
  embedChunksEnv env.addDocResult chunks
  (match env.updateReadyError with
   | none => pure ()
   | some m => throw { message := "Failed to update video status: " ++ m })
  pure (videoData, chunks)

/-- The `update-status-to-processing` step. -/
def setProcessing (row : VideoRow) : VideoRow :=
  { row with status := VideoStatus.PROCESSING }

/-- The `try`/`catch` tail of `ingestVideo` applied to the (already
`PROCESSING`) row: on success the row becomes `READY` with the fetched title
and thumbnail; on any failure the row becomes `FAILED` with `failure_reason`
set to the error's message. -/
def ingestFinish (env : IngestEnv) (videoId : String) (row : VideoRow) : VideoRow :=
  match ingestTryBody env videoId with
  | Except.ok res =>
    { row with status := VideoStatus.READY, title := res.1.title,
               thumbnail_url := res.1.thumbnailUrl }
  | Except.error e =>
    { row with status := VideoStatus.FAILED, failure_reason := some e.message }

/-- The whole `ingestVideo` durable function: set the row to `PROCESSING`,
run the `try` body, write the terminal row, and re-raise (return) the
`try` body's outcome to the workflow runner. -/
def ingestVideo (env : IngestEnv) (videoId : String) (row : VideoRow) :
    VideoRow × Except JsError (YouTubeVideoData × List ChunkedParagraph) :=
  (ingestFinish env videoId (setProcessing row), ingestTryBody env videoId)

/-- The `{ success, message }` value returned by `retryFailedVideo`. -/
structure RetryResult where
  success : Bool
  message : String
deriving DecidableEq, Inhabited

/-- The status-dependent core of `retryFailedVideo`
(`src/app/_context/scope-context.tsx`): a video that is not `FAILED` is
rejected without any row change; a `FAILED` video is reset to `QUEUED` with
`failure_reason` cleared. -/
def retryFailedVideo (row : VideoRow) : VideoRow × RetryResult :=
  if row.status = VideoStatus.FAILED then
    ({ row with status := VideoStatus.QUEUED, failure_reason := none },
     { success := true, message := "Success: Video retry initiated!" })
  else
    (row, { success := false, message := "Error: Video is not in FAILED status" })

/-- One step of the core on a video's row.  An ingestion run starts only on a
`QUEUED` row: the `youtube/ingest` event is emitted at exactly two places,
immediately after inserting the row with `status: "QUEUED"`
(`scope-context.tsx`, single-video and channel ingestion) and immediately
after `retryFailedVideo` reset the row to `QUEUED`.  The `finishIngest` step
is the `try`/`catch` tail of the durable function on the `PROCESSING` row,
and `retry` is `retryFailedVideo` (a no-op row-wise unless the row is
`FAILED`). -/
inductive CoreStep : VideoRow → VideoRow → Prop where
  | startIngest (row : VideoRow) :
      row.status = VideoStatus.QUEUED → CoreStep row (setProcessing row)
  | finishIngest (env : IngestEnv) (videoId : String) (row : VideoRow) :
      row.status = VideoStatus.PROCESSING → CoreStep row (ingestFinish env videoId row)
  | retry (row : VideoRow) : CoreStep row (retryFailedVideo row).1

/-! ## Index-client documents and the embed step's idempotence (C6 model) -/

/-- A document held by a collection: keyed by `path`, holding the passage
text. -/
structure ZeDocument where
  path : String
  text : String
deriving DecidableEq, Inhabited

/-- The index client's `documents.add` against one collection, exactly as the
embed step experiences it: a duplicate path is reported as an error whose
message includes `already exists` with status `409`; otherwise the document
is appended. -/
def addDocument (docs : List ZeDocument) (d : ZeDocument) :
    Except JsError (List ZeDocument) :=
  if docs.any (fun x => x.path == d.path) then
    Except.error { message := "Document already exists", status := 409 }
  else Except.ok (docs ++ [d])

/-- The `embed-chunks` loop run against the stateful collection: each chunk
is inserted keyed by its path; an `already exists` / `409` response is
treated as success and skipped; any other error aborts the step. -/
def embedChunksState (docs : List ZeDocument) :
    List ChunkedParagraph → Except JsError (List ZeDocument)
  | [] => Except.ok docs
  | c :: rest =>
    match addDocument docs { path := c.path, text := c.text } with
    | Except.ok docs2 => embedChunksState docs2 rest
    | Except.error e =>
      if jsIncludes e.message ("already exists") || e.status == 409 then
        embedChunksState docs rest
      else Except.error e

/-! ## Retrieval orchestrator (`POST` in `src/app/api/chat/route.ts` and the
compose `POST` in `src/app/api/conversations/[conversationId]/export/route.ts`) -/

/-- One `(content, path, score)` tuple returned by a collection query; the
score may be absent. -/
structure RagResult where
  content : String
  path : String
  score : Option ℚ
deriving DecidableEq, Inhabited

/-- The chat route's adaptive per-video budget:
`scopedVideoIds.length === 1 ? 10 : Math.max(3, Math.min(5, Math.ceil(15 / scopedVideoIds.length)))`. -/
def chatChunksPerVideo (n : Nat) : Nat :=
  if n = 1 then 10 else max 3 (min 5 (Int.ceil ((15 : ℚ) / (n : ℚ))).toNat)

/-- The compose route's adaptive per-video budget:
`videoIds.length === 1 ? 15 : Math.max(5, Math.min(10, Math.ceil(25 / videoIds.length)))`. -/
def composeChunksPerVideo (n : Nat) : Nat :=
  if n = 1 then 15 else max 5 (min 10 (Int.ceil ((25 : ℚ) / (n : ℚ))).toNat)

/-- The per-collection query loop: each scoped video's collection is queried
independently; a response carrying a `results` array contributes those
results, a response without one contributes nothing, and any query error
(missing collection or otherwise) is caught and contributes nothing. -/
def gatherResults (queryOutcome : String → Except JsError (Option (List RagResult)))
    (ids : List String) : List RagResult :=
  ids.foldl (fun acc vid =>
    match queryOutcome vid with
    | Except.ok (some rs) => acc ++ rs
    | Except.ok none => acc
    | Except.error _ => acc) []

/-- The comparator's key: `result.score || 0`. -/
def scoreVal (r : RagResult) : ℚ := r.score.getD 0

/-- Stable insertion of a pooled result into an already-sorted (descending)
list: the inserted element comes from earlier in the pool than every element
of the list, so it goes before the first element whose score is not larger. -/
def insertByScore (r : RagResult) : List RagResult → List RagResult
  | [] => [r]
  | x :: xs => if scoreVal x ≤ scoreVal r then r :: x :: xs else x :: insertByScore r xs

/-- Model of `Array.prototype.sort` with the comparator
`(a, b) => (b.score || 0) - (a.score || 0)`: a stable sort by descending
score (ECMA-262 requires sort stability, and any two stable sorts of the
same list under the same preorder are extensionally equal, so stable
insertion sort is a faithful model). -/
def sortByScoreDesc : List RagResult → List RagResult
  | [] => []
  | x :: xs => insertByScore x (sortByScoreDesc xs)

/-- The routes' `sortedResults`: keep the tuples with a defined score and
sort them by score, descending, stably. -/
def sortedResults (pool : List RagResult) : List RagResult :=
  sortByScoreDesc (pool.filter (fun r => r.score.isSome))

/-- The chat route's `topFilteredResults`:
`sortedResults.slice(0, Math.min(10, sortedResults.length))`. -/
def topFilteredResults (pool : List RagResult) : List RagResult :=
  (sortedResults pool).take (min 10 (sortedResults pool).length)

/-- The compose route's `topResults`:
`sortedResults.slice(0, Math.min(15, sortedResults.length))`. -/
def topComposeResults (pool : List RagResult) : List RagResult :=
  (sortedResults pool).take (min 15 (sortedResults pool).length)

/-! ## Context assembly and chunk-path parsing (chat route lines 157–188) -/

/-- Attempt of the regex `chunk_\d+_(\d+(?:\.\d+)?)s` at the start of the
character list, returning the capture group.  Maximal-munch digit runs are
exact here: every alternative a backtracking engine would try next compares
a digit with `_`, `.` or `s` and fails, so the greedy reading is the only
possible match at a given start. -/
def chunkTimeAt (l : List Char) : Option (List Char) :=
  if charsIsPrefix ("chunk_".data) l then
    let r0 := l.drop 6
    let d1 := r0.takeWhile (fun c => c.isDigit)
    let r1 := r0.dropWhile (fun c => c.isDigit)
    if d1 = [] then none else
    match r1 with
    | [] => none
    | x :: r2 =>
      if x = '_' then
        let d2 := r2.takeWhile (fun c => c.isDigit)
        let r3 := r2.dropWhile (fun c => c.isDigit)
        if d2 = [] then none else
        match r3 with
        | [] => none
        | y :: r4 =>
          if y = '.' then
            let d3 := r4.takeWhile (fun c => c.isDigit)
            let r5 := r4.dropWhile (fun c => c.isDigit)
            if d3 = [] then none else
            match r5 with
            | [] => none
            | z :: _ => if z = 's' then some (d2 ++ '.' :: d3) else none
          else if y = 's' then some d2
          else none
      else none
  else none

/-- Leftmost match of `chunk_\d+_(\d+(?:\.\d+)?)s` over the whole string:
try each start position from the left. -/
def chunkTimeSearch : List Char → Option (List Char)
  | [] => none
  | x :: xs =>
    match chunkTimeAt (x :: xs) with
    | some c => some c
    | none => chunkTimeSearch xs

/-- The routes' timestamp extraction from a chunk filename:
`timestampMatch ? timestampMatch[1] : '0'`. -/
def chunkTimeOfFilename (filename : String) : String :=
  match chunkTimeSearch filename.data with
  | some c => c.asString
  | none => "0"

/-- The routes' path parsing: `pathParts = path.split('/')`,
`videoId = pathParts[0]`, `filename = pathParts[1] || ''`, and the timestamp
extracted from the filename with fallback `'0'`. -/
def parseResultPath (path : String) : String × String :=
  let pathParts := splitOnChar '/' path.data
  let videoId := pathParts.headI.asString
  let filename := (pathParts.drop 1).headI.asString
  (videoId, chunkTimeOfFilename filename)

/-- One entry of the assembled context block, for the result at `index`. -/
def contextEntry (index : Nat) (r : RagResult) : String :=
  let p := parseResultPath r.path
  "[Chunk " ++ natToStr (index + 1) ++ "]\nVideo ID: " ++ p.1 ++
    "\nTimestamp: " ++ p.2 ++ "s\nContent: " ++ r.content ++ "\n---"

/-- The context assembler: a nonempty result list renders into the
enumerated, `\n\n`-joined block; an empty one becomes the explicit
nothing-found text. -/
def assembleContext (topResults : List RagResult) : String :=
  if topResults.length > 0 then
    jsJoin "\n\n" (topResults.mapIdx contextEntry)
  else "No relevant information found in the selected video transcripts."

/-- The chat route's retrieval-plus-assembly pipeline on a request scoped to
`ids`, given the per-collection query outcomes. -/
def chatContext (queryOutcome : String → Except JsError (Option (List RagResult)))
    (ids : List String) : String :=
  assembleContext (topFilteredResults (gatherResults queryOutcome ids))

/-! ## Citation renderer (`CitationRenderer` in
`src/app/_components/citation-renderer.tsx`) -/

/-- The regex class `\s` (the whitespace forms relevant here; the citation
grammar uses single spaces). -/
def jsWhitespace (c : Char) : Bool :=
  c = ' ' || c = '\t' || c = '\n' || c = '\r' || c = '\x0b' || c = '\x0c'

/-- The regex class `[\w-]` used for the captured video id. -/
def idChar (c : Char) : Bool := c.isAlphanum || c = '_' || c = '-'

/-- A successful match of the citation regex
`\[video_id:\s*([\w-]+),\s*time:\s*(\d+(?:\.\d*)?)s?\]`: the full matched
text, the captured id, and the captured timestamp literal. -/
structure CitationMatch where
  full : List Char
  videoId : String
  timeStr : List Char
deriving DecidableEq, Inhabited

/-- Attempt of the citation regex at the start of the character list.
Maximal-munch runs are exact: every alternative a backtracking engine would
try next compares characters from disjoint classes (whitespace, word
characters, digits, and the literals `,` `time:` `s` `]`), so the greedy
reading is the only possible match at a given start. -/
def citeAt (l : List Char) : Option CitationMatch :=
  if charsIsPrefix ("[video_id:".data) l then
    let r0 := l.drop 10
    let ws1 := r0.takeWhile jsWhitespace
    let r1 := r0.dropWhile jsWhitespace
    let idc := r1.takeWhile idChar
    let r2 := r1.dropWhile idChar
    if idc = [] then none else
    match r2 with
    | [] => none
    | cm :: r3 =>
      if cm = ',' then
        let ws2 := r3.takeWhile jsWhitespace
        let r4 := r3.dropWhile jsWhitespace
        if charsIsPrefix ("time:".data) r4 then
          let r5 := r4.drop 5
          let ws3 := r5.takeWhile jsWhitespace
          let r6 := r5.dropWhile jsWhitespace
          let d1 := r6.takeWhile (fun c => c.isDigit)
          let r7 := r6.dropWhile (fun c => c.isDigit)
          if d1 = [] then none else
          let header := ("[video_id:".data) ++ ws1 ++ idc ++ ',' :: ws2 ++
            ("time:".data) ++ ws3
          match r7 with
          | [] => none
          | x :: r8 =>
            if x = '.' then
              let frac := r8.takeWhile (fun c => c.isDigit)
              let r9 := r8.dropWhile (fun c => c.isDigit)
              let time := d1 ++ '.' :: frac
              match r9 with
              | [] => none
              | y :: r10 =>
                if y = 's' then
                  match r10 with
                  | [] => none
                  | z :: _ =>
                    if z = ']' then
                      some { full := header ++ time ++ ['s', ']'],
                             videoId := idc.asString, timeStr := time }
                    else none
                else if y = ']' then
                  some { full := header ++ time ++ [']'],
                         videoId := idc.asString, timeStr := time }
                else none
            else if x = 's' then
              match r8 with
              | [] => none
              | y :: _ =>
                if y = ']' then
                  some { full := header ++ d1 ++ ['s', ']'],
                         videoId := idc.asString, timeStr := d1 }
                else none
            else if x = ']' then
              some { full := header ++ d1 ++ [']'],
                     videoId := idc.asString, timeStr := d1 }
            else none
        else none
      else none
  else none

/-- One entry of the known-video map `videos`:
`{ youtubeId, title }`. -/
structure VideoInfo where
  youtubeId : String
  title : String
deriving DecidableEq, Inhabited

/-- The renderer's output elements: a plain text segment, a sequential
citation marker (an anchor showing `[number]`, with its hyperlink and its
hover `title` attribute), or an unknown-id citation left as its literal
matched text. -/
inductive RenderedElement where
  | textSeg (s : String)
  | citation (number : Nat) (href : String) (title : String)
  | fallback (s : String)
deriving DecidableEq, Inhabited

/-- The known-id branch of the renderer: the anchor for citation number `n`
to the video at the parsed timestamp, with
`href = https://www.youtube.com/watch?v=<youtubeId>&t=<floor>s` and hover
title `Go to "<title>" at <toFixed(1)>s`. -/
def mkCitationElement (n : Nat) (info : VideoInfo) (timestamp : ℚ) : RenderedElement :=
  RenderedElement.citation n
    ("https://www.youtube.com/watch?v=" ++ info.youtubeId ++ "&t=" ++
      natToStr (floorNat timestamp) ++ "s")
    ("Go to \"" ++ info.title ++ "\" at " ++ jsToFixed1 timestamp ++ "s")

/-- The `matchAll` loop of `CitationRenderer`, one character at a time.
`acc` holds (reversed) the plain text accumulated since the last emitted
element, and `skip` is the number of characters of the current match still
to pass over (matching `lastIndex`: the search resumes at the end of each
match).  On a match: the pending text segment is flushed, the citation
becomes a numbered marker when its id is in the map (incrementing the
counter) and stays literal text otherwise. -/
def renderGo (videos : String → Option VideoInfo) (counter : Nat) (skip : Nat)
    (acc : List Char) : List Char → List RenderedElement
  | [] => if acc = [] then [] else [RenderedElement.textSeg acc.reverse.asString]
  | x :: xs =>
    match skip with
    | k + 1 => renderGo videos counter k acc xs
    | 0 =>
      match citeAt (x :: xs) with
      | none => renderGo videos counter 0 (x :: acc) xs
      | some m =>
        let pre := if acc = [] then [] else [RenderedElement.textSeg acc.reverse.asString]
        match videos m.videoId with
        | some info =>
          pre ++ mkCitationElement counter info (parseDecimalChars m.timeStr) ::
            renderGo videos (counter + 1) (m.full.length - 1) [] xs
        | none =>
          pre ++ RenderedElement.fallback m.full.asString ::
            renderGo videos counter (m.full.length - 1) [] xs

/-- The `CitationRenderer` component's element list for a message `text`
against the known-video map: citation numbering starts at 1. -/
def renderCitations (text : String) (videos : String → Option VideoInfo) :
    List RenderedElement :=
  renderGo videos 1 0 [] text.data

/-! ## Spec-side citation-message grammar, for comparing the renderer against
the citation-grammar contract (a message is alternating plain text and
literal citation tokens `[video_id: <ID>, time: <SECONDS>[s]]`). -/

/-- A citation token's payload: the video id, the seconds literal, and
whether the optional `s` suffix is present. -/
structure CitationTok where
  id : String
  secs : String
  hasS : Bool
deriving DecidableEq, Inhabited

/-- Well-formedness of the `<SECONDS>` literal: one or more digits,
optionally followed by a dot and further digits. -/
def secsWellFormed (l : List Char) : Bool :=
  match l.takeWhile (fun c => c.isDigit), l.dropWhile (fun c => c.isDigit) with
  | [], _ => false
  | _ :: _, [] => true
  | _ :: _, x :: rest => x = '.' && rest.all (fun c => c.isDigit)

/-- Well-formedness of a citation token: a nonempty id over `[\w-]` and a
well-formed seconds literal. -/
def tokWellFormed (t : CitationTok) : Bool :=
  !t.id.data.isEmpty && t.id.data.all idChar && secsWellFormed t.secs.data

/-- The literal text of a citation token,
`[video_id: <ID>, time: <SECONDS>[s]]`. -/
def tokText (t : CitationTok) : String :=
  "[video_id: " ++ t.id ++ ", time: " ++ t.secs ++ (if t.hasS then "s" else "") ++ "]"

/-- A plain text segment that cannot open a citation token. -/
def plainSeg (s : String) : Bool := s.data.all (fun c => c != '[')

/-- A generated message as alternating plain segments and citation tokens,
with a trailing plain segment. -/
def buildMessage : List (String × CitationTok) → String → String
  | [], trail => trail
  | (raw, t) :: ps, trail => raw ++ tokText t ++ buildMessage ps trail

/-- The elements the spec prescribes for such a message: plain segments pass
through, a known-id token becomes the numbered marker hyperlinked to the
watch URL at the floored timestamp with the `toFixed(1)` hover title, an
unknown-id token stays literal, and marker numbers increment in emission
order. -/
def specRender (videos : String → Option VideoInfo) (counter : Nat) :
    List (String × CitationTok) → String → List RenderedElement
  | [], trail => if trail = "" then [] else [RenderedElement.textSeg trail]
  | (raw, t) :: ps, trail =>
    (if raw = "" then [] else [RenderedElement.textSeg raw]) ++
    (match videos t.id with
     | some info =>
       RenderedElement.citation counter
         ("https://www.youtube.com/watch?v=" ++ info.youtubeId ++ "&t=" ++
           natToStr (floorNat (parseDecimal t.secs)) ++ "s")
         ("Go to \"" ++ info.title ++ "\" at " ++ jsToFixed1 (parseDecimal t.secs) ++ "s") ::
         specRender videos (counter + 1) ps trail
     | none =>
       RenderedElement.fallback (tokText t) :: specRender videos counter ps trail)

/-! ## Helper lemmas: characters, digit strings, splitting and joining -/

theorem digitChar_isDigit {d : Nat} (h : d < 10) : (digitChar d).isDigit = true := by
  interval_cases d <;> decide

theorem digitChar_toNat {d : Nat} (h : d < 10) : (digitChar d).toNat = 48 + d := by
  interval_cases d <;> decide

theorem ne_of_isDigit {c d : Char} (h : c.isDigit = true) (hd : d.isDigit = false) :
    c ≠ d := by
  intro e
  rw [e] at h
  rw [h] at hd
  cases hd

theorem natToChars_ne_nil (n : Nat) : natToChars n ≠ [] := by
  rw [natToChars]
  split <;> simp

theorem natToChars_all_digit : ∀ n : Nat, ∀ c ∈ natToChars n, c.isDigit = true := by
  intro n
  induction n using Nat.strong_induction_on with
  | _ n ih =>
    rw [natToChars]
    split
    · intro c hc
      rw [List.mem_singleton] at hc
      subst hc
      exact digitChar_isDigit (by omega)
    · intro c hc
      rcases List.mem_append.mp hc with h1 | h2
      · exact ih (n / 10) (Nat.div_lt_self (by omega) (by omega)) c h1
      · rw [List.mem_singleton] at h2
        subst h2
        exact digitChar_isDigit (Nat.mod_lt _ (by omega))

theorem charsToNat_append_singleton (l : List Char) (c : Char) :
    charsToNat (l ++ [c]) = 10 * charsToNat l + (c.toNat - 48) := by
  simp [charsToNat, List.foldl_append]

theorem charsToNat_natToChars : ∀ n : Nat, charsToNat (natToChars n) = n := by
  intro n
  induction n using Nat.strong_induction_on with
  | _ n ih =>
    rw [natToChars]
    split
    · next h =>
      simp [charsToNat, digitChar_toNat h]
    · next h =>
      rw [charsToNat_append_singleton, ih (n / 10) (Nat.div_lt_self (by omega) (by omega)),
        digitChar_toNat (Nat.mod_lt _ (by omega))]
      omega

theorem charsIsPrefix_iff (a : List Char) : ∀ b, charsIsPrefix a b = true ↔ a <+: b := by
  induction a with
  | nil => intro b; simp [charsIsPrefix]
  | cons x xs ih =>
    intro b
    cases b with
    | nil => simp [charsIsPrefix]
    | cons y ys =>
      simp only [charsIsPrefix, Bool.and_eq_true, decide_eq_true_eq, ih ys,
        List.cons_prefix_cons]

theorem charsIsInfix_iff (a : List Char) : ∀ b, charsIsInfix a b = true ↔ a <:+: b := by
  intro b
  induction b with
  | nil =>
    simp only [charsIsInfix, charsIsPrefix_iff, List.infix_nil]
    constructor
    · intro h; exact List.prefix_nil.mp h
    · intro h; simp [h]
  | cons y ys ih =>
    simp only [charsIsInfix, Bool.or_eq_true, charsIsPrefix_iff, ih, List.infix_cons_iff]

theorem takeWhile_append_of_all {α : Type} {p : α → Bool} {a : List α}
    (h : ∀ x ∈ a, p x = true) (b : List α) :
    (a ++ b).takeWhile p = a ++ b.takeWhile p := by
  induction a with
  | nil => simp
  | cons x xs ih =>
    have hx : p x = true := h x (List.mem_cons_self x xs)
    simp only [List.cons_append, List.takeWhile_cons, hx, if_true]
    rw [ih (fun y hy => h y (List.mem_cons_of_mem x hy))]

theorem dropWhile_append_of_all {α : Type} {p : α → Bool} {a : List α}
    (h : ∀ x ∈ a, p x = true) (b : List α) :
    (a ++ b).dropWhile p = b.dropWhile p := by
  induction a with
  | nil => simp
  | cons x xs ih =>
    have hx : p x = true := h x (List.mem_cons_self x xs)
    simp only [List.cons_append, List.dropWhile_cons, hx, if_true]
    exact ih (fun y hy => h y (List.mem_cons_of_mem x hy))

theorem takeWhile_cons_of_neg {α : Type} {p : α → Bool} {x : α} (h : p x = false)
    (l : List α) : (x :: l).takeWhile p = [] := by
  simp [List.takeWhile_cons, h]

theorem dropWhile_cons_of_neg {α : Type} {p : α → Bool} {x : α} (h : p x = false)
    (l : List α) : (x :: l).dropWhile p = x :: l := by
  simp [List.dropWhile_cons, h]

theorem splitOnChar_of_not_mem {c : Char} : ∀ {l : List Char}, (∀ x ∈ l, x ≠ c) →
    splitOnChar c l = [l] := by
  intro l
  induction l with
  | nil => intro _; rfl
  | cons x xs ih =>
    intro h
    have hxs := ih (fun y hy => h y (List.mem_cons_of_mem x hy))
    have hx : x ≠ c := h x (List.mem_cons_self x xs)
    simp [splitOnChar, hxs, hx]

theorem splitOnChar_append {c : Char} : ∀ {a : List Char} (b : List Char),
    (∀ x ∈ a, x ≠ c) → splitOnChar c (a ++ c :: b) = a :: splitOnChar c b := by
  intro a
  induction a with
  | nil =>
    intro b _
    have hb : splitOnChar c b ≠ [] := by
      cases b with
      | nil => simp [splitOnChar]
      | cons y ys =>
        simp only [splitOnChar]
        split <;> simp_all <;> split <;> simp
    simp only [List.nil_append, splitOnChar]
    cases hsb : splitOnChar c b with
    | nil => exact absurd hsb hb
    | cons h t => simp
  | cons x xs ih =>
    intro b h
    have hx : x ≠ c := h x (List.mem_cons_self x xs)
    have hxs := ih b (fun y hy => h y (List.mem_cons_of_mem x hy))
    simp only [List.cons_append, splitOnChar, List.append_eq, hxs, hx, if_false]

theorem jsJoin_append (sep : String) : ∀ (l1 l2 : List String), l1 ≠ [] → l2 ≠ [] →
    jsJoin sep (l1 ++ l2) = jsJoin sep l1 ++ sep ++ jsJoin sep l2 := by
  intro l1
  induction l1 with
  | nil => intro l2 h _; exact absurd rfl h
  | cons x xs ih =>
    intro l2 _ h2
    cases xs with
    | nil =>
      cases l2 with
      | nil => exact absurd rfl h2
      | cons y ys => simp [jsJoin]
    | cons x2 rest =>
      have := ih l2 (by simp) h2
      simp only [List.cons_append] at this ⊢
      cases h3 : (x2 :: rest) ++ l2 with
      | nil => simp at h3
      | cons z zs =>
        simp only [jsJoin, ← h3, this]
        simp [jsJoin, String.append_assoc]

/-! ## Helper lemmas: the chunking loop -/

theorem chunkGo_nil (vid : String) (c i : Nat) : chunkGo vid c i [] = [] := by
  rw [chunkGo]

theorem chunkGo_cons (vid : String) (c i : Nat) (seg : TranscriptSegment)
    (rest : List TranscriptSegment) :
    chunkGo vid c i (seg :: rest) =
      mkChunk vid i (seg :: rest.take (c - 1)) ::
        chunkGo vid c (i + c) (rest.drop (c - 1)) := by
  rw [chunkGo]

theorem chunkGo_length (vid : String) {c : Nat} (hc : 0 < c) :
    ∀ (n : Nat) (s : List TranscriptSegment) (i : Nat), s.length ≤ n →
      (chunkGo vid c i s).length = (s.length + c - 1) / c := by
  intro n
  induction n with
  | zero =>
    intro s i hs
    have : s = [] := List.length_eq_zero.mp (by omega)
    subst this
    rw [chunkGo_nil]
    simp only [List.length_nil]
    exact (Nat.div_eq_of_lt (by omega)).symm
  | succ n ih =>
    intro s i hs
    cases s with
    | nil =>
      rw [chunkGo_nil]
      simp only [List.length_nil]
      exact (Nat.div_eq_of_lt (by omega)).symm
    | cons seg rest =>
      simp only [List.length_cons] at hs
      rw [chunkGo_cons]
      rw [List.length_cons, ih (rest.drop (c - 1)) (i + c) (by rw [List.length_drop]; omega)]
      rw [List.length_drop, List.length_cons]
      rcases Nat.lt_or_ge rest.length (c - 1) with hlt | hge
      · have h1 : rest.length - (c - 1) = 0 := by omega
        rw [h1]
        rw [Nat.div_eq_of_lt (by omega : 0 + c - 1 < c)]
        have h2 : rest.length + 1 + c - 1 = rest.length + c := by omega
        rw [h2, Nat.add_div_right _ hc, Nat.div_eq_of_lt (by omega : rest.length < c)]
      · have h1 : rest.length - (c - 1) + c - 1 = rest.length := by omega
        have h2 : rest.length + 1 + c - 1 = rest.length + c := by omega
        rw [h1, h2, Nat.add_div_right _ hc]

theorem chunkGo_getD (vid : String) {c : Nat} (hc : 0 < c) :
    ∀ (n : Nat) (s : List TranscriptSegment) (i j : Nat), s.length ≤ n →
      j < (chunkGo vid c i s).length →
      (chunkGo vid c i s).getD j default = mkChunk vid (i + c * j) ((s.drop (c * j)).take c) := by
  obtain ⟨c0, rfl⟩ : ∃ c0, c = c0 + 1 := ⟨c - 1, by omega⟩
  intro n
  induction n with
  | zero =>
    intro s i j hs hj
    have : s = [] := List.length_eq_zero.mp (by omega)
    subst this
    rw [chunkGo_nil] at hj
    simp at hj
  | succ n ih =>
    intro s i j hs hj
    cases s with
    | nil =>
      rw [chunkGo_nil] at hj
      simp at hj
    | cons seg rest =>
      simp only [List.length_cons] at hs
      rw [chunkGo_cons] at hj ⊢
      cases j with
      | zero =>
        simp only [List.getD_cons_zero, Nat.mul_zero, Nat.add_zero, List.drop_zero,
          Nat.add_one_sub_one, List.take_succ_cons]
      | succ j =>
        rw [List.getD_cons_succ]
        rw [List.length_cons] at hj
        have hlen : (rest.drop ((c0 + 1) - 1)).length ≤ n := by
          rw [List.length_drop]; omega
        have hj2 : j < (chunkGo vid (c0 + 1) (i + (c0 + 1)) (rest.drop ((c0 + 1) - 1))).length := by
          omega
        rw [ih (rest.drop ((c0 + 1) - 1)) (i + (c0 + 1)) j hlen hj2]
        have e1 : i + (c0 + 1) + (c0 + 1) * j = i + (c0 + 1) * (j + 1) := by ring
        have e2 : (rest.drop ((c0 + 1) - 1)).drop ((c0 + 1) * j) =
            (seg :: rest).drop ((c0 + 1) * (j + 1)) := by
          rw [List.drop_drop]
          have e3 : (c0 + 1) * (j + 1) = ((c0 + 1) - 1 + (c0 + 1) * j) + 1 := by ring_nf; omega
          rw [e3, List.drop_succ_cons]
        rw [e1, e2]

theorem jsJoin_cons_of_ne (sep x : String) {l : List String} (h : l ≠ []) :
    jsJoin sep (x :: l) = x ++ sep ++ jsJoin sep l := by
  cases l with
  | nil => exact absurd rfl h
  | cons y ys => rfl

theorem chunkGo_join (vid : String) {c : Nat} (hc : 0 < c) :
    ∀ (n : Nat) (s : List TranscriptSegment) (i : Nat), s.length ≤ n →
      jsJoin " " ((chunkGo vid c i s).map ChunkedParagraph.text) =
        jsJoin " " (s.map TranscriptSegment.text) := by
  intro n
  induction n with
  | zero =>
    intro s i hs
    have : s = [] := List.length_eq_zero.mp (by omega)
    subst this
    rw [chunkGo_nil]
    rfl
  | succ n ih =>
    intro s i hs
    cases s with
    | nil =>
      rw [chunkGo_nil]
      rfl
    | cons seg rest =>
      simp only [List.length_cons] at hs
      rw [chunkGo_cons]
      by_cases hdrop : rest.drop (c - 1) = []
      · have htake : rest.take (c - 1) = rest := by
          apply List.take_of_length_le
          have := List.length_drop (c - 1) rest
          rw [hdrop] at this
          simp at this
          omega
        rw [hdrop, chunkGo_nil]
        simp only [List.map_cons, List.map_nil, jsJoin, mkChunk, htake]
      · have hgroup : (seg :: rest.take (c - 1)).map TranscriptSegment.text ≠ [] := by simp
        have htail : (chunkGo vid c (i + c) (rest.drop (c - 1))).map ChunkedParagraph.text ≠ [] := by
          simp only [ne_eq, List.map_eq_nil]
          intro hnil
          have hlen := chunkGo_length vid hc (rest.drop (c - 1)).length (rest.drop (c - 1)) (i + c) le_rfl
          rw [hnil] at hlen
          simp only [List.length_nil] at hlen
          have hpos : 0 < (rest.drop (c - 1)).length + c - 1 := by
            have : (rest.drop (c - 1)).length ≠ 0 :=
              fun h0 => hdrop (List.length_eq_zero.mp h0)
            omega
          have := Nat.div_add_mod ((rest.drop (c - 1)).length + c - 1) c
          rcases Nat.lt_or_ge ((rest.drop (c - 1)).length + c - 1) c with hlt | hge
          · have : (rest.drop (c - 1)).length = 0 := by omega
            exact hdrop (List.length_eq_zero.mp this)
          · have := Nat.div_pos hge hc
            omega
        rw [List.map_cons, jsJoin_cons_of_ne _ _ htail]
        rw [ih (rest.drop (c - 1)) (i + c) (by rw [List.length_drop]; omega)]
        show ChunkedParagraph.text (mkChunk vid i (seg :: rest.take (c - 1))) ++ " " ++ _ = _
        have hmk : ChunkedParagraph.text (mkChunk vid i (seg :: rest.take (c - 1))) =
            jsJoin " " ((seg :: rest.take (c - 1)).map TranscriptSegment.text) := rfl
        rw [hmk]
        have hsplit : (seg :: rest).map TranscriptSegment.text =
            (seg :: rest.take (c - 1)).map TranscriptSegment.text ++
              (rest.drop (c - 1)).map TranscriptSegment.text := by
          rw [← List.map_append]
          congr 1
          rw [List.cons_append, List.take_append_drop]
        rw [hsplit, jsJoin_append _ _ _ hgroup (by simpa using hdrop)]

/-- C1: for every ordered segment list `s` and the fixed group size 10, the
chunker returns exactly `ceil (length s / 10)` passages, obtained by
partitioning `s` into consecutive groups of at most 10 segments; the `j`-th
passage's text is its group's texts joined with single spaces, its start time
is the group's first segment's offset divided by 1000, its end time is the
group's last segment's offset-plus-duration divided by 1000; and the
space-joined concatenation of all passage texts equals the space-joined
concatenation of all segment texts. -/
theorem chunker_partition_correct (s : List TranscriptSegment) (vid : String) :
    (chunkTranscript s vid).length = (s.length + 9) / 10 ∧
    (∀ j, j < (chunkTranscript s vid).length →
      (s.drop (10 * j)).take 10 ≠ [] ∧
      ((chunkTranscript s vid).getD j default).text =
        jsJoin " " (((s.drop (10 * j)).take 10).map TranscriptSegment.text) ∧
      ((chunkTranscript s vid).getD j default).startTime =
        ((s.drop (10 * j)).take 10).headI.offset / 1000 ∧
      ((chunkTranscript s vid).getD j default).endTime =
        (((s.drop (10 * j)).take 10).getLastI.offset +
          ((s.drop (10 * j)).take 10).getLastI.duration) / 1000) ∧
    jsJoin " " ((chunkTranscript s vid).map ChunkedParagraph.text) =
      jsJoin " " (s.map TranscriptSegment.text) := by
  have h10 : (0 : Nat) < 10 := by omega
  have hlen : (chunkTranscript s vid).length = (s.length + 9) / 10 := by
    have h := chunkGo_length vid h10 s.length s 0 le_rfl
    simpa using h
  refine ⟨hlen, ?_, chunkGo_join vid h10 s.length s 0 le_rfl⟩
  intro j hj
  have hget := chunkGo_getD vid h10 s.length s 0 j le_rfl hj
  have hjs : 10 * j < s.length := by
    rw [hlen] at hj
    have hmod := Nat.div_add_mod (s.length + 9) 10
    have hm := Nat.mod_lt (s.length + 9) h10
    omega
  have hne : (s.drop (10 * j)).take 10 ≠ [] := by
    intro hnil
    have := congrArg List.length hnil
    simp only [List.length_take, List.length_drop, List.length_nil] at this
    omega
  show _ ∧ ((chunkTranscript s vid).getD j default).text = _ ∧ _ ∧ _
  rw [show chunkTranscript s vid = chunkGo vid 10 0 s from rfl, hget]
  exact ⟨hne, rfl, rfl, rfl⟩

/-- Witness for C1: a concrete two-segment transcript gives one passage with
the joined text, the first segment's start and the last segment's end. -/
theorem chunker_partition_correct_witness :
    0 < (chunkTranscript [⟨"a", 0, 1000⟩, ⟨"b", 1000, 500⟩] "v").length ∧
    ((chunkTranscript [⟨"a", 0, 1000⟩, ⟨"b", 1000, 500⟩] "v").getD 0 default).text = "a b" ∧
    ((chunkTranscript [⟨"a", 0, 1000⟩, ⟨"b", 1000, 500⟩] "v").getD 0 default).startTime = 0 ∧
    ((chunkTranscript [⟨"a", 0, 1000⟩, ⟨"b", 1000, 500⟩] "v").getD 0 default).endTime = 3 / 2 := by
  have H := chunker_partition_correct [⟨"a", 0, 1000⟩, ⟨"b", 1000, 500⟩] "v"
  have hlen : (chunkTranscript [⟨"a", 0, 1000⟩, ⟨"b", 1000, 500⟩] "v").length = 1 := by
    rw [H.1]; decide
  have hj := H.2.1 0 (by omega)
  refine ⟨by omega, ?_, ?_, ?_⟩
  · rw [hj.2.1]; decide
  · rw [hj.2.2.1]
    norm_num [List.headI]
  · rw [hj.2.2.2]
    norm_num [List.getLastI]

/-! ## Helper lemmas: the ceiling of a rational division of naturals -/

theorem ceil_div_nat (a n : Nat) (hn : 0 < n) (ha : 0 < a) :
    (⌈(a : ℚ) / (n : ℚ)⌉).toNat = (a + n - 1) / n := by
  have hnq : (0 : ℚ) < (n : ℚ) := by exact_mod_cast hn
  set k := (a + n - 1) / n with hk
  have hub : k * n ≤ a + n - 1 := (Nat.le_div_iff_mul_le hn).mp le_rfl
  have hlb : a + n - 1 < k * n + n := by
    have := (Nat.div_lt_iff_lt_mul hn).mp (Nat.lt_succ_self k)
    rw [Nat.succ_mul] at this
    exact this
  have hk1 : 1 ≤ k := by
    rw [hk, Nat.le_div_iff_mul_le hn, one_mul]
    omega
  have h3 : a ≤ k * n := by omega
  have h4 : (k - 1) * n < a := by
    have : (k - 1) * n + n = k * n := by
      rw [← Nat.succ_mul]
      congr 1
      omega
    omega
  have hceil : ⌈(a : ℚ) / (n : ℚ)⌉ = (k : ℤ) := by
    apply le_antisymm
    · rw [Int.ceil_le, div_le_iff₀ hnq]
      exact_mod_cast h3
    · have : ((k : ℤ) - 1) < ⌈(a : ℚ) / (n : ℚ)⌉ := by
        rw [Int.lt_ceil, lt_div_iff₀ hnq]
        have hknat : ((k - 1 : ℕ) : ℚ) = (k : ℚ) - 1 := by
          push_cast [Nat.cast_sub hk1]
          ring
        push_cast
        rw [← hknat]
        exact_mod_cast h4
      omega
  rw [hceil]
  simp

/-- Counterexample for C2: the claim states that every retrieval request uses
budget 10 for a single scoped video, but the compose (longer-form) route's
budget at `n = 1` is 15, not 10. -/
theorem adaptive_k_claim_counterexample :
    composeChunksPerVideo 1 = 15 ∧ composeChunksPerVideo 1 ≠ 10 := by
  decide

/-- C2 (amended): the chat route's per-video budget is 10 when `n = 1` and
`clamp(ceil(15 / n), 3, 5)` when `n > 1`, with `k(2) = 5`, `k(3) = 5`,
`k(5) = 3`, `k(10) = 3` and `3 ≤ k ≤ 5` for every `n > 1`; the compose
(longer-form) route instead uses 15 when `n = 1` and
`clamp(ceil(25 / n), 5, 10)` when `n > 1`. -/
theorem adaptive_k_correct :
    chatChunksPerVideo 1 = 10 ∧
    (∀ n, 1 < n → chatChunksPerVideo n = max 3 (min 5 ((15 + n - 1) / n))) ∧
    chatChunksPerVideo 2 = 5 ∧ chatChunksPerVideo 3 = 5 ∧
    chatChunksPerVideo 5 = 3 ∧ chatChunksPerVideo 10 = 3 ∧
    (∀ n, 1 < n → 3 ≤ chatChunksPerVideo n ∧ chatChunksPerVideo n ≤ 5) ∧
    composeChunksPerVideo 1 = 15 ∧
    (∀ n, 1 < n → composeChunksPerVideo n = max 5 (min 10 ((25 + n - 1) / n))) ∧
    (∀ n, 1 < n → 5 ≤ composeChunksPerVideo n ∧ composeChunksPerVideo n ≤ 10) := by
  have hchat : ∀ n, 1 < n → chatChunksPerVideo n = max 3 (min 5 ((15 + n - 1) / n)) := by
    intro n hn
    have h := ceil_div_nat 15 n (by omega) (by omega)
    norm_num at h
    have e : 15 + n - 1 = 14 + n := by omega
    rw [chatChunksPerVideo, if_neg (by omega), h, e]
  have hcompose : ∀ n, 1 < n → composeChunksPerVideo n = max 5 (min 10 ((25 + n - 1) / n)) := by
    intro n hn
    have h := ceil_div_nat 25 n (by omega) (by omega)
    norm_num at h
    have e : 25 + n - 1 = 24 + n := by omega
    rw [composeChunksPerVideo, if_neg (by omega), h, e]
  refine ⟨by decide, hchat, by rw [hchat 2 (by omega)]; decide,
    by rw [hchat 3 (by omega)]; decide,
    by rw [hchat 5 (by omega)]; decide, by rw [hchat 10 (by omega)]; decide, ?_, by decide,
    hcompose, ?_⟩
  · intro n hn
    rw [hchat n hn]
    constructor
    · exact le_max_left _ _
    · exact max_le (by omega) (min_le_left _ _)
  · intro n hn
    rw [hcompose n hn]
    constructor
    · exact le_max_left _ _
    · exact max_le (by omega) (min_le_left _ _)

/-- Witness for C2 (amended), at `n = 4` scoped videos: the chat budget is
`clamp(ceil(15/4), 3, 5) = 4` and the compose budget is
`clamp(ceil(25/4), 5, 10) = 7`. -/
theorem adaptive_k_correct_witness :
    (1 : Nat) < 4 ∧ chatChunksPerVideo 4 = 4 ∧ composeChunksPerVideo 4 = 7 := by
  refine ⟨by decide, ?_, ?_⟩
  · rw [adaptive_k_correct.2.1 4 (by decide)]
    decide
  · rw [adaptive_k_correct.2.2.2.2.2.2.2.2.1 4 (by decide)]
    decide

/-! ## Helper lemmas: the stable descending sort of pooled results -/

theorem insertByScore_perm (r : RagResult) : ∀ l : List RagResult,
    (insertByScore r l).Perm (r :: l) := by
  intro l
  induction l with
  | nil => exact List.Perm.refl _
  | cons x xs ih =>
    rw [insertByScore]
    split
    · exact List.Perm.refl _
    · exact (List.Perm.cons x ih).trans (List.Perm.swap r x xs)

theorem sortByScoreDesc_perm : ∀ l : List RagResult, (sortByScoreDesc l).Perm l := by
  intro l
  induction l with
  | nil => exact List.Perm.refl _
  | cons x xs ih =>
    rw [sortByScoreDesc]
    exact (insertByScore_perm x _).trans (List.Perm.cons x ih)

theorem insertByScore_sorted (r : RagResult) : ∀ l : List RagResult,
    List.Sorted (fun a b => scoreVal b ≤ scoreVal a) l →
    List.Sorted (fun a b => scoreVal b ≤ scoreVal a) (insertByScore r l) := by
  intro l
  induction l with
  | nil => intro _; simp [insertByScore]
  | cons x xs ih =>
    intro hs
    rw [List.sorted_cons] at hs
    rw [insertByScore]
    split
    · next hle =>
      rw [List.sorted_cons]
      constructor
      · intro b hb
        rcases List.mem_cons.mp hb with rfl | hbxs
        · exact hle
        · exact le_trans (hs.1 b hbxs) hle
      · rw [List.sorted_cons]
        exact hs
    · next hgt =>
      rw [List.sorted_cons]
      constructor
      · intro b hb
        rcases List.mem_cons.mp ((insertByScore_perm r xs).mem_iff.mp hb) with rfl | h
        · exact le_of_lt (lt_of_not_le hgt)
        · exact hs.1 b h
      · exact ih hs.2

theorem sortByScoreDesc_sorted : ∀ l : List RagResult,
    List.Sorted (fun a b => scoreVal b ≤ scoreVal a) (sortByScoreDesc l) := by
  intro l
  induction l with
  | nil => simp [sortByScoreDesc]
  | cons x xs ih =>
    rw [sortByScoreDesc]
    exact insertByScore_sorted x _ ih

theorem filter_insertByScore_of_eq {v : ℚ} {r : RagResult} (hr : scoreVal r = v) :
    ∀ l : List RagResult,
      (insertByScore r l).filter (fun x => decide (scoreVal x = v)) =
        r :: l.filter (fun x => decide (scoreVal x = v)) := by
  intro l
  induction l with
  | nil => simp [insertByScore, List.filter, hr]
  | cons x xs ih =>
    rw [insertByScore]
    split
    · next hle =>
      rw [List.filter_cons, if_pos (by simpa using hr)]
    · next hgt =>
      have hx : ¬(scoreVal x = v) := by
        intro he
        rw [← he] at hr
        exact hgt (le_of_eq hr.symm)
      rw [List.filter_cons, if_neg (by simpa using hx), ih,
        List.filter_cons, if_neg (by simpa using hx)]

theorem filter_insertByScore_of_ne {v : ℚ} {r : RagResult} (hr : scoreVal r ≠ v) :
    ∀ l : List RagResult,
      (insertByScore r l).filter (fun x => decide (scoreVal x = v)) =
        l.filter (fun x => decide (scoreVal x = v)) := by
  intro l
  induction l with
  | nil => simp [insertByScore, List.filter, hr]
  | cons x xs ih =>
    rw [insertByScore]
    split
    · next hle =>
      rw [List.filter_cons, if_neg (by simpa using hr)]
    · next hgt =>
      rw [List.filter_cons, ih, List.filter_cons]

theorem filter_sortByScoreDesc (v : ℚ) : ∀ l : List RagResult,
    (sortByScoreDesc l).filter (fun x => decide (scoreVal x = v)) =
      l.filter (fun x => decide (scoreVal x = v)) := by
  intro l
  induction l with
  | nil => rfl
  | cons x xs ih =>
    rw [sortByScoreDesc]
    by_cases hx : scoreVal x = v
    · rw [filter_insertByScore_of_eq hx, ih, List.filter_cons, if_pos (by simpa using hx)]
    · rw [filter_insertByScore_of_ne hx, ih, List.filter_cons, if_neg (by simpa using hx)]

theorem take_min_length {α : Type} (k : Nat) (l : List α) :
    l.take (min k l.length) = l.take k := by
  rcases le_total k l.length with h | h
  · rw [min_eq_left h]
  · rw [min_eq_right h, List.take_length, List.take_of_length_le h]

/-- C3: the orchestrator keeps exactly the pooled tuples carrying a defined
score, sorts them by score descending with equal-score tuples keeping their
original relative order (stable sort), and truncates to a global top-N with
N = 10 for chat and N = 15 for longer-form generation. -/
theorem global_reranking_correct (pool : List RagResult) :
    (sortedResults pool).Perm (pool.filter (fun r => r.score.isSome)) ∧
    List.Sorted (fun a b => scoreVal b ≤ scoreVal a) (sortedResults pool) ∧
    (∀ v : ℚ, (sortedResults pool).filter (fun r => decide (scoreVal r = v)) =
      (pool.filter (fun r => r.score.isSome)).filter (fun r => decide (scoreVal r = v))) ∧
    topFilteredResults pool = (sortedResults pool).take 10 ∧
    topComposeResults pool = (sortedResults pool).take 15 := by
  refine ⟨sortByScoreDesc_perm _, sortByScoreDesc_sorted _,
    fun v => filter_sortByScoreDesc v _, ?_, ?_⟩
  · rw [topFilteredResults, take_min_length]
  · rw [topComposeResults, take_min_length]

/-- C4: under the core's operations, the status only ever changes along the
edges QUEUED→PROCESSING, PROCESSING→READY, PROCESSING→FAILED and
FAILED→QUEUED; retry succeeds exactly when the current status is FAILED, and
then it sets the status to QUEUED while clearing `failure_reason`; READY has
no outgoing transition (every core step from a READY row leaves the row
unchanged). -/
theorem status_machine_correct :
    (∀ r1 r2 : VideoRow, CoreStep r1 r2 → r1.status ≠ r2.status →
      (r1.status = VideoStatus.QUEUED ∧ r2.status = VideoStatus.PROCESSING) ∨
      (r1.status = VideoStatus.PROCESSING ∧ r2.status = VideoStatus.READY) ∨
      (r1.status = VideoStatus.PROCESSING ∧ r2.status = VideoStatus.FAILED) ∨
      (r1.status = VideoStatus.FAILED ∧ r2.status = VideoStatus.QUEUED)) ∧
    (∀ r : VideoRow, (retryFailedVideo r).2.success = true ↔ r.status = VideoStatus.FAILED) ∧
    (∀ r : VideoRow, r.status = VideoStatus.FAILED →
      (retryFailedVideo r).1.status = VideoStatus.QUEUED ∧
      (retryFailedVideo r).1.failure_reason = none) ∧
    (∀ r1 r2 : VideoRow, CoreStep r1 r2 → r1.status = VideoStatus.READY → r2 = r1) := by
  refine ⟨?_, ?_, ?_, ?_⟩
  · intro r1 r2 hstep hne
    cases hstep with
    | startIngest row hq => exact Or.inl ⟨hq, rfl⟩
    | finishIngest env vid row hp =>
      cases hb : ingestTryBody env vid with
      | ok res =>
        refine Or.inr (Or.inl ⟨hp, ?_⟩)
        simp [ingestFinish, hb]
      | error e =>
        refine Or.inr (Or.inr (Or.inl ⟨hp, ?_⟩))
        simp [ingestFinish, hb]
    | retry =>
      by_cases hf : r1.status = VideoStatus.FAILED
      · rw [retryFailedVideo, if_pos hf] at hne ⊢
        exact Or.inr (Or.inr (Or.inr ⟨hf, rfl⟩))
      · rw [retryFailedVideo, if_neg hf] at hne
        exact absurd rfl hne
  · intro r
    rw [retryFailedVideo]
    by_cases hf : r.status = VideoStatus.FAILED
    · rw [if_pos hf]
      simpa using hf
    · rw [if_neg hf]
      simpa using hf
  · intro r hf
    rw [retryFailedVideo, if_pos hf]
    exact ⟨rfl, rfl⟩
  · intro r1 r2 hstep hready
    cases hstep with
    | startIngest row hq => rw [hready] at hq; cases hq
    | finishIngest env vid row hp => rw [hready] at hp; cases hp
    | retry row =>
      rw [retryFailedVideo, if_neg (by rw [hready]; intro h; cases h)]

/-- Witness for C4: a concrete FAILED row retries successfully into a QUEUED
row with its failure reason cleared, and a concrete core step from a READY
row leaves the row unchanged. -/
theorem status_machine_correct_witness :
    ((⟨VideoStatus.FAILED, some "boom", "t", "u"⟩ : VideoRow).status = VideoStatus.FAILED) ∧
    (retryFailedVideo ⟨VideoStatus.FAILED, some "boom", "t", "u"⟩).2.success = true ∧
    (retryFailedVideo ⟨VideoStatus.FAILED, some "boom", "t", "u"⟩).1.status =
      VideoStatus.QUEUED ∧
    (retryFailedVideo ⟨VideoStatus.FAILED, some "boom", "t", "u"⟩).1.failure_reason = none ∧
    (retryFailedVideo ⟨VideoStatus.READY, none, "t", "u"⟩).1 =
      (⟨VideoStatus.READY, none, "t", "u"⟩ : VideoRow) := by
  have H := status_machine_correct
  refine ⟨rfl, ?_, ?_, ?_, ?_⟩
  · exact (H.2.1 ⟨VideoStatus.FAILED, some "boom", "t", "u"⟩).mpr rfl
  · exact (H.2.2.1 ⟨VideoStatus.FAILED, some "boom", "t", "u"⟩ rfl).1
  · exact (H.2.2.1 ⟨VideoStatus.FAILED, some "boom", "t", "u"⟩ rfl).2
  · exact H.2.2.2 ⟨VideoStatus.READY, none, "t", "u"⟩ _
      (CoreStep.retry ⟨VideoStatus.READY, none, "t", "u"⟩) rfl

/-- C5: if any step of ingest after the transition to PROCESSING fails, the
video row is set to FAILED with `failure_reason` equal to that error's
message and the same error is re-raised to the workflow runner; a successful
run ends READY; FAILED is reached exactly when an error is re-raised; and in
particular a fetch failure propagates unchanged, and an empty transcript
aborts with the `Cannot chunk empty transcript` error. -/
theorem ingest_failure_capture (env : IngestEnv) (vid : String) (row : VideoRow) :
    (∀ e : JsError, (ingestVideo env vid row).2 = Except.error e →
      (ingestVideo env vid row).1.status = VideoStatus.FAILED ∧
      (ingestVideo env vid row).1.failure_reason = some e.message) ∧
    (∀ res, (ingestVideo env vid row).2 = Except.ok res →
      (ingestVideo env vid row).1.status = VideoStatus.READY) ∧
    ((ingestVideo env vid row).1.status = VideoStatus.FAILED ↔
      ∃ e, (ingestVideo env vid row).2 = Except.error e) ∧
    (∀ e, env.fetchResult = Except.error e →
      (ingestVideo env vid row).2 = Except.error e) ∧
    (∀ vd, env.fetchResult = Except.ok vd → vd.transcript = [] →
      (ingestVideo env vid row).2 =
        Except.error { message := "Cannot chunk empty transcript" }) := by
  refine ⟨?_, ?_, ?_, ?_, ?_⟩
  · intro e he
    simp only [ingestVideo] at he
    simp [ingestVideo, ingestFinish, he]
  · intro res hr
    simp only [ingestVideo] at hr
    simp [ingestVideo, ingestFinish, hr]
  · cases hb : ingestTryBody env vid with
    | ok res => simp [ingestVideo, ingestFinish, hb]
    | error e => simp [ingestVideo, ingestFinish, hb]
  · intro e hf
    simp only [ingestVideo, ingestTryBody, hf]
    rfl
  · intro vd hf hempty
    obtain ⟨tr, ti, th⟩ := vd
    dsimp only at hempty
    subst hempty
    simp only [ingestVideo]
    unfold ingestTryBody
    rw [hf]
    rfl

/-- Witness for C5: a concrete environment whose transcript fetch fails with
a given error leaves the row FAILED carrying that error's message, and the
same error is re-raised. -/
theorem ingest_failure_capture_witness :
    (ingestVideo
        ⟨Except.error ⟨"Failed to fetch transcript: boom", 0⟩, Except.ok (),
          fun _ => Except.ok (), none⟩ "v"
        ⟨VideoStatus.QUEUED, none, "t", "u"⟩).2 =
      Except.error ⟨"Failed to fetch transcript: boom", 0⟩ ∧
    (ingestVideo
        ⟨Except.error ⟨"Failed to fetch transcript: boom", 0⟩, Except.ok (),
          fun _ => Except.ok (), none⟩ "v"
        ⟨VideoStatus.QUEUED, none, "t", "u"⟩).1.status = VideoStatus.FAILED ∧
    (ingestVideo
        ⟨Except.error ⟨"Failed to fetch transcript: boom", 0⟩, Except.ok (),
          fun _ => Except.ok (), none⟩ "v"
        ⟨VideoStatus.QUEUED, none, "t", "u"⟩).1.failure_reason =
      some "Failed to fetch transcript: boom" := by
  have H := ingest_failure_capture
    ⟨Except.error ⟨"Failed to fetch transcript: boom", 0⟩, Except.ok (),
      fun _ => Except.ok (), none⟩ "v" ⟨VideoStatus.QUEUED, none, "t", "u"⟩
  have he := H.2.2.2.1 ⟨"Failed to fetch transcript: boom", 0⟩ rfl
  have hcap := H.1 ⟨"Failed to fetch transcript: boom", 0⟩ he
  exact ⟨he, hcap.1, hcap.2⟩

/-! ## Helper lemmas: the embed step against the document store -/

theorem tolerated_duplicate :
    (jsIncludes "Document already exists" ("already exists") || (409 == 409)) = true := by
  decide

theorem addDocument_mem {docs : List ZeDocument} {d : ZeDocument}
    (h : d.path ∈ docs.map ZeDocument.path) :
    addDocument docs d = Except.error { message := "Document already exists", status := 409 } := by
  rw [addDocument, if_pos]
  rw [List.any_eq_true]
  obtain ⟨x, hx, hpath⟩ := List.mem_map.mp h
  exact ⟨x, hx, by simp [hpath]⟩

theorem addDocument_not_mem {docs : List ZeDocument} {d : ZeDocument}
    (h : ¬ d.path ∈ docs.map ZeDocument.path) :
    addDocument docs d = Except.ok (docs ++ [d]) := by
  rw [addDocument, if_neg]
  intro hany
  obtain ⟨x, hx, hpath⟩ := List.any_eq_true.mp hany
  exact h (List.mem_map.mpr ⟨x, hx, by simpa using hpath⟩)

theorem paths_mem_of_embed : ∀ (chunks : List ChunkedParagraph) (docs d : List ZeDocument),
    embedChunksState docs chunks = Except.ok d →
    (∀ x ∈ docs, x ∈ d) ∧ (∀ c ∈ chunks, c.path ∈ d.map ZeDocument.path) := by
  intro chunks
  induction chunks with
  | nil =>
    intro docs d h
    rw [embedChunksState] at h
    have : docs = d := by simpa using h
    subst this
    exact ⟨fun x hx => hx, by simp⟩
  | cons c cs ih =>
    intro docs d h
    rw [embedChunksState] at h
    by_cases hmem : c.path ∈ docs.map ZeDocument.path
    · rw [addDocument_mem hmem] at h
      dsimp only at h
      rw [if_pos tolerated_duplicate] at h
      obtain ⟨hsub, hrest⟩ := ih docs d h
      refine ⟨hsub, ?_⟩
      intro c2 hc2
      rcases List.mem_cons.mp hc2 with rfl | hc2
      · obtain ⟨x, hx, hpath⟩ := List.mem_map.mp hmem
        exact List.mem_map.mpr ⟨x, hsub x hx, hpath⟩
      · exact hrest c2 hc2
    · rw [addDocument_not_mem hmem] at h
      obtain ⟨hsub, hrest⟩ := ih (docs ++ [{ path := c.path, text := c.text }]) d h
      refine ⟨fun x hx => hsub x (List.mem_append_left _ hx), ?_⟩
      intro c2 hc2
      rcases List.mem_cons.mp hc2 with rfl | hc2
      · refine List.mem_map.mpr ⟨{ path := c2.path, text := c2.text }, ?_, rfl⟩
        exact hsub _ (List.mem_append_right _ (List.mem_singleton_self _))
      · exact hrest c2 hc2

theorem embed_stable : ∀ (chunks : List ChunkedParagraph) (docs : List ZeDocument),
    (∀ c ∈ chunks, c.path ∈ docs.map ZeDocument.path) →
    embedChunksState docs chunks = Except.ok docs := by
  intro chunks
  induction chunks with
  | nil => intro docs _; rw [embedChunksState]
  | cons c cs ih =>
    intro docs hall
    rw [embedChunksState, addDocument_mem (hall c (List.mem_cons_self c cs))]
    dsimp only
    rw [if_pos tolerated_duplicate]
    exact ih docs (fun c2 hc2 => hall c2 (List.mem_cons_of_mem c hc2))

theorem embed_nodup : ∀ (chunks : List ChunkedParagraph) (docs d : List ZeDocument),
    embedChunksState docs chunks = Except.ok d →
    (docs.map ZeDocument.path).Nodup → (d.map ZeDocument.path).Nodup := by
  intro chunks
  induction chunks with
  | nil =>
    intro docs d h hnd
    rw [embedChunksState] at h
    have : docs = d := by simpa using h
    subst this
    exact hnd
  | cons c cs ih =>
    intro docs d h hnd
    rw [embedChunksState] at h
    by_cases hmem : c.path ∈ docs.map ZeDocument.path
    · rw [addDocument_mem hmem] at h
      dsimp only at h
      rw [if_pos tolerated_duplicate] at h
      exact ih docs d h hnd
    · rw [addDocument_not_mem hmem] at h
      refine ih _ d h ?_
      rw [List.map_append]
      rw [List.nodup_append]
      exact ⟨hnd, by simp, by simpa [List.disjoint_right] using hmem⟩

/-- C6: running the embed step a second time with an identical passage list,
against an index client that reports `already exists` (status 409) for a
duplicate path, succeeds and leaves the document list exactly as it was
after the first run; every passage path is present after the first run, and
path uniqueness is preserved — re-running ingestion produces no duplicate
passages. -/
theorem embed_idempotent (docs0 : List ZeDocument) (chunks : List ChunkedParagraph)
    (docs1 : List ZeDocument) (h : embedChunksState docs0 chunks = Except.ok docs1) :
    embedChunksState docs1 chunks = Except.ok docs1 ∧
    (∀ c ∈ chunks, c.path ∈ docs1.map ZeDocument.path) ∧
    ((docs0.map ZeDocument.path).Nodup → (docs1.map ZeDocument.path).Nodup) := by
  have hm := paths_mem_of_embed chunks docs0 docs1 h
  exact ⟨embed_stable chunks docs1 hm.2, hm.2, embed_nodup chunks docs0 docs1 h⟩

/-- Witness for C6: embedding one concrete chunk into an empty store inserts
it, and re-running the step returns the identical store. -/
theorem embed_idempotent_witness :
    embedChunksState [] [⟨"hello", 0, 1, "v/chunk_0_0.0s.txt"⟩] =
      Except.ok [{ path := "v/chunk_0_0.0s.txt", text := "hello" }] ∧
    embedChunksState [{ path := "v/chunk_0_0.0s.txt", text := "hello" }]
        [⟨"hello", 0, 1, "v/chunk_0_0.0s.txt"⟩] =
      Except.ok [{ path := "v/chunk_0_0.0s.txt", text := "hello" }] := by
  have h1 : embedChunksState [] [⟨"hello", 0, 1, "v/chunk_0_0.0s.txt"⟩] =
      Except.ok [{ path := "v/chunk_0_0.0s.txt", text := "hello" }] := by
    rw [embedChunksState, addDocument_not_mem (by simp), embedChunksState]
    rfl
  exact ⟨h1,
    (embed_idempotent [] [⟨"hello", 0, 1, "v/chunk_0_0.0s.txt"⟩]
      [{ path := "v/chunk_0_0.0s.txt", text := "hello" }] h1).1⟩

/-! ## Helper lemmas: the per-collection query loop -/

theorem gather_foldl (qo : String → Except JsError (Option (List RagResult))) :
    ∀ (ids : List String) (acc : List RagResult),
      ids.foldl (fun acc vid =>
        match qo vid with
        | Except.ok (some rs) => acc ++ rs
        | Except.ok none => acc
        | Except.error _ => acc) acc =
      acc ++ ids.flatMap (fun vid =>
        match qo vid with
        | Except.ok (some rs) => rs
        | _ => []) := by
  intro ids
  induction ids with
  | nil => intro acc; simp
  | cons vid rest ih =>
    intro acc
    rw [List.foldl_cons, List.flatMap_cons, ih]
    cases hq : qo vid with
    | ok o =>
      cases o with
      | some rs => simp [hq, List.append_assoc]
      | none => simp [hq]
    | error e => simp [hq]

/-- C8: a per-collection query failure of any kind contributes zero results
and never fails the request — the pooled result list is exactly the
concatenation of the successful queries' result arrays — and when the final
pool of scored results is empty the assembled context is the explicit
nothing-found text rather than an error or an empty string. -/
theorem retrieval_partial_failure_tolerated
    (qo : String → Except JsError (Option (List RagResult))) (ids : List String) :
    gatherResults qo ids = ids.flatMap (fun vid =>
      match qo vid with
      | Except.ok (some rs) => rs
      | _ => []) ∧
    (∀ vid e, qo vid = Except.error e →
      (match qo vid with
       | Except.ok (some rs) => rs
       | _ => []) = ([] : List RagResult)) ∧
    ((gatherResults qo ids).filter (fun r => r.score.isSome) = [] →
      chatContext qo ids =
        "No relevant information found in the selected video transcripts.") ∧
    assembleContext [] =
      "No relevant information found in the selected video transcripts." := by
  refine ⟨?_, ?_, ?_, rfl⟩
  · rw [gatherResults, gather_foldl]
    rfl
  · intro vid e he
    rw [he]
  · intro hf
    simp only [chatContext, topFilteredResults, sortedResults, hf]
    rfl

/-- Witness for C8: with two scoped videos whose collection queries both
fail (one 404, one other error), the pool is empty and the chat context is
the explicit nothing-found text. -/
theorem retrieval_partial_failure_tolerated_witness :
    gatherResults
        (fun vid => if vid = "a" then Except.error ⟨"Collection not found", 404⟩
          else Except.error ⟨"boom", 500⟩) ["a", "b"] = [] ∧
    (gatherResults
        (fun vid => if vid = "a" then Except.error ⟨"Collection not found", 404⟩
          else Except.error ⟨"boom", 500⟩) ["a", "b"]).filter
        (fun r => r.score.isSome) = [] ∧
    chatContext
        (fun vid => if vid = "a" then Except.error ⟨"Collection not found", 404⟩
          else Except.error ⟨"boom", 500⟩) ["a", "b"] =
      "No relevant information found in the selected video transcripts." := by
  refine ⟨by decide, by decide, ?_⟩
  exact (retrieval_partial_failure_tolerated
    (fun vid => if vid = "a" then Except.error ⟨"Collection not found", 404⟩
      else Except.error ⟨"boom", 500⟩) ["a", "b"]).2.2.1 (by decide)

/-! ## Helper lemmas: path splitting and the chunk-time regex fallback -/

theorem splitOnChar_ne_nil (c : Char) : ∀ l : List Char, splitOnChar c l ≠ [] := by
  intro l
  cases l with
  | nil => simp [splitOnChar]
  | cons x xs =>
    rw [splitOnChar]
    cases splitOnChar c xs with
    | nil => simp
    | cons h t =>
      dsimp only
      split <;> simp

theorem splitOnChar_headI (c : Char) : ∀ l : List Char,
    (splitOnChar c l).headI = l.takeWhile (fun x => x != c) := by
  intro l
  induction l with
  | nil => rfl
  | cons x xs ih =>
    rw [splitOnChar]
    cases hs : splitOnChar c xs with
    | nil => exact absurd hs (splitOnChar_ne_nil c xs)
    | cons h t =>
      dsimp only
      by_cases hx : x = c
      · rw [if_pos hx, List.takeWhile_cons]
        simp [hx]
      · rw [if_neg hx]
        simp only [List.headI]
        have hh : h = (splitOnChar c xs).headI := by rw [hs]; rfl
        rw [hh, ih, List.takeWhile_cons]
        simp [hx]

theorem mem_splitOnChar_infix (c : Char) : ∀ (l : List Char) (part : List Char),
    part ∈ splitOnChar c l → part <:+: l := by
  intro l
  induction l with
  | nil =>
    intro part h
    rw [splitOnChar] at h
    rw [List.mem_singleton.mp h]
  | cons x xs ih =>
    intro part h
    rw [splitOnChar] at h
    cases hs : splitOnChar c xs with
    | nil => exact absurd hs (splitOnChar_ne_nil c xs)
    | cons hd t =>
      rw [hs] at h
      dsimp only at h
      by_cases hx : x = c
      · rw [if_pos hx] at h
        rcases List.mem_cons.mp h with rfl | hmem
        · exact List.nil_infix
        · exact List.infix_cons (ih part (by rw [hs]; exact hmem))
      · rw [if_neg hx] at h
        rcases List.mem_cons.mp h with rfl | hmem
        · have hh : hd = xs.takeWhile (fun y => y != c) := by
            have := splitOnChar_headI c xs
            rw [hs] at this
            simpa using this
          rw [hh]
          exact (List.cons_prefix_cons.mpr ⟨rfl, List.takeWhile_prefix _⟩).isInfix
        · exact List.infix_cons (ih part (by rw [hs]; exact List.mem_cons_of_mem hd hmem))

theorem chunkTimeAt_none {l : List Char}
    (h : charsIsPrefix (("chunk_").data) l = false) : chunkTimeAt l = none := by
  rw [chunkTimeAt, if_neg (by simp [h])]

theorem chunkTimeSearch_none : ∀ l : List Char,
    charsIsInfix (("chunk_").data) l = false → chunkTimeSearch l = none := by
  intro l
  induction l with
  | nil => intro _; rfl
  | cons x xs ih =>
    intro h
    rw [charsIsInfix, Bool.or_eq_false_iff] at h
    rw [chunkTimeSearch, chunkTimeAt_none h.1, ih h.2]

/-- C10: the context assembler is total on arbitrary result paths — the
video id is the text before the first `/` (the whole path when there is no
`/`), a filename that does not contain the substring `chunk_` makes the
start time fall back to the literal `0`, and every result, whatever its
path, is rendered into the enumerated context block at its position. -/
theorem context_assembly_total (path : String) :
    (parseResultPath path).1 = (path.data.takeWhile (fun c => c != '/')).asString ∧
    (charsIsInfix (("chunk_").data) path.data = false → (parseResultPath path).2 = "0") ∧
    (∀ (rs : List RagResult) (k : Nat) (hk : k < rs.length),
      (rs.mapIdx contextEntry).getD k "" = contextEntry k (rs.getD k default) ∧
      contextEntry k (rs.getD k default) =
        "[Chunk " ++ natToStr (k + 1) ++ "]\nVideo ID: " ++
          (parseResultPath (rs.getD k default).path).1 ++ "\nTimestamp: " ++
          (parseResultPath (rs.getD k default).path).2 ++ "s\nContent: " ++
          (rs.getD k default).content ++ "\n---") ∧
    (∀ rs : List RagResult, rs ≠ [] →
      assembleContext rs = jsJoin "\n\n" (rs.mapIdx contextEntry)) := by
  refine ⟨?_, ?_, ?_, ?_⟩
  · rw [parseResultPath]
    dsimp only
    rw [splitOnChar_headI]
  · intro h
    rw [parseResultPath]
    dsimp only
    cases hd : (splitOnChar '/' path.data).drop 1 with
    | nil => rfl
    | cons f t =>
      have hf : f ∈ splitOnChar '/' path.data :=
        List.mem_of_mem_drop (by rw [hd]; exact List.mem_cons_self f t)
      have hinf : f <:+: path.data := mem_splitOnChar_infix '/' path.data f hf
      have hnone : charsIsInfix (("chunk_").data) f = false := by
        by_contra hc
        rw [Bool.not_eq_false] at hc
        have h1 : ("chunk_").data <:+: f := (charsIsInfix_iff _ f).mp hc
        have h2 : charsIsInfix (("chunk_").data) path.data = true :=
          (charsIsInfix_iff _ path.data).mpr (h1.trans hinf)
        rw [h2] at h
        cases h
      simp only [List.headI]
      rw [chunkTimeOfFilename]
      have he : (f.asString).data = f := rfl
      rw [he, chunkTimeSearch_none f hnone]
  · intro rs k hk
    constructor
    · rw [List.getD_eq_getElem _ _ (by simpa using hk), List.getElem_mapIdx,
        List.getD_eq_getElem _ _ hk]
    · rfl
  · intro rs hne
    rw [assembleContext, if_pos]
    simpa [List.length_pos] using hne

/-- Witness for C10: a path with no slash and no `chunk_` marker still
produces a rendered entry, with the whole path as video id and start time
`0`. -/
theorem context_assembly_total_witness :
    (parseResultPath "weird-path.bin").1 = "weird-path.bin" ∧
    (parseResultPath "weird-path.bin").2 = "0" ∧
    assembleContext [{ content := "c", path := "weird-path.bin", score := some 1 }] =
      "[Chunk 1]\nVideo ID: weird-path.bin\nTimestamp: 0s\nContent: c\n---" := by
  have H := context_assembly_total "weird-path.bin"
  refine ⟨?_, H.2.1 (by decide), ?_⟩
  · rw [H.1]
    decide
  · rw [H.2.2.2 [{ content := "c", path := "weird-path.bin", score := some 1 }] (by decide)]
    have h1 : natToStr 1 = "1" := by
      rw [natToStr, natToChars]
      rfl
    have h3 : (parseResultPath "weird-path.bin").1 = "weird-path.bin" := by
      rw [H.1]; decide
    have h4 : (parseResultPath "weird-path.bin").2 = "0" := H.2.1 (by decide)
    have hm : List.mapIdx contextEntry
        [{ content := "c", path := "weird-path.bin", score := some 1 }] =
        [contextEntry 0 { content := "c", path := "weird-path.bin", score := some 1 }] := by
      rw [List.mapIdx_eq_enum_map]
      rfl
    rw [hm]
    show contextEntry 0 { content := "c", path := "weird-path.bin", score := some 1 } = _
    simp only [contextEntry]
    rw [show natToStr (0 + 1) = "1" from h1, h3, h4]
    decide

/-! ## Helper lemmas: digit strings, the chunk-path grammar and its parse -/

theorem natToChars_lt_ten {n : Nat} (h : n < 10) : natToChars n = [digitChar n] := by
  rw [natToChars, dif_pos h]

theorem charsIsPrefix_append_self (a b : List Char) : charsIsPrefix a (a ++ b) = true :=
  (charsIsPrefix_iff a (a ++ b)).mpr (List.prefix_append a b)

theorem takeWhile_cons_of_pos {α : Type} {p : α → Bool} {x : α} (h : p x = true)
    (l : List α) : (x :: l).takeWhile p = x :: l.takeWhile p := by
  simp [List.takeWhile_cons, h]

theorem dropWhile_cons_of_pos {α : Type} {p : α → Bool} {x : α} (h : p x = true)
    (l : List α) : (x :: l).dropWhile p = l.dropWhile p := by
  simp [List.dropWhile_cons, h]

theorem chunkTimeAt_fname (i : Nat) (tfInt : List Char) (d : Char)
    (hInt : ∀ c ∈ tfInt, c.isDigit = true) (hIntNe : tfInt ≠ [])
    (hd : d.isDigit = true) :
    chunkTimeAt (("chunk_").data ++ (natToChars i ++ ('_' :: (tfInt ++ ('.' :: (d :: ("s.txt").data)))))) =
      some (tfInt ++ '.' :: [d]) := by
  dsimp only [chunkTimeAt]
  rw [if_pos (charsIsPrefix_append_self _ _)]
  rw [show (6 : Nat) = (("chunk_").data).length from rfl, List.drop_left]
  rw [@takeWhile_append_of_all Char (fun c => c.isDigit) (natToChars i)
      (natToChars_all_digit i) _,
    takeWhile_cons_of_neg (by decide) _, List.append_nil,
    @dropWhile_append_of_all Char (fun c => c.isDigit) (natToChars i)
      (natToChars_all_digit i) _,
    dropWhile_cons_of_neg (by decide) _]
  rw [if_neg (natToChars_ne_nil i)]
  dsimp only
  rw [if_pos rfl]
  rw [@takeWhile_append_of_all Char (fun c => c.isDigit) tfInt hInt _,
    takeWhile_cons_of_neg (by decide) _, List.append_nil,
    @dropWhile_append_of_all Char (fun c => c.isDigit) tfInt hInt _,
    dropWhile_cons_of_neg (by decide) _]
  rw [if_neg hIntNe]
  dsimp only
  rw [if_pos rfl]
  rw [@takeWhile_cons_of_pos Char (fun c => c.isDigit) d hd _,
    takeWhile_cons_of_neg (by decide) _,
    @dropWhile_cons_of_pos Char (fun c => c.isDigit) d hd _,
    dropWhile_cons_of_neg (by decide) _]
  rw [if_neg (by simp)]
  dsimp only
  rw [if_pos rfl]

theorem chunkTimeSearch_of_at : ∀ {l : List Char} {t : List Char},
    chunkTimeAt l = some t → chunkTimeSearch l = some t := by
  intro l t h
  cases l with
  | nil =>
    have : chunkTimeAt ([] : List Char) = none := rfl
    rw [this] at h
    cases h
  | cons x xs => rw [chunkTimeSearch, h]

theorem asString_data (l : List Char) : (l.asString).data = l := rfl

theorem jsToFixed1_data (q : ℚ) :
    (jsToFixed1 q).data =
      natToChars ((Int.floor (q * 10 + 1 / 2)).toNat / 10) ++
        ('.' :: [digitChar ((Int.floor (q * 10 + 1 / 2)).toNat % 10)]) := by
  simp only [jsToFixed1]
  rw [String.data_append, String.data_append, asString_data, asString_data,
    natToChars_lt_ten (Nat.mod_lt _ (by omega))]
  simp [List.append_assoc]

theorem chunkPath_data (vid : String) (i : Nat) (q : ℚ) :
    (vid ++ "/chunk_" ++ natToStr i ++ "_" ++ jsToFixed1 q ++ "s.txt").data =
      vid.data ++ ('/' :: (("chunk_").data ++ (natToChars i ++ ('_' ::
        (natToChars ((Int.floor (q * 10 + 1 / 2)).toNat / 10) ++ ('.' ::
          (digitChar ((Int.floor (q * 10 + 1 / 2)).toNat % 10) :: ("s.txt").data))))))) := by
  simp only [String.data_append, natToStr, asString_data]
  rw [jsToFixed1_data]
  simp [List.append_assoc]

theorem fname_no_slash (i : Nat) (q : ℚ) : ∀ x ∈ ("chunk_").data ++ (natToChars i ++ ('_' ::
    (natToChars ((Int.floor (q * 10 + 1 / 2)).toNat / 10) ++ ('.' ::
      (digitChar ((Int.floor (q * 10 + 1 / 2)).toNat % 10) :: ("s.txt").data))))), x ≠ '/' := by
  intro x hx hx'
  subst hx'
  rcases List.mem_append.mp hx with h | h
  · exact absurd h (by decide)
  · rcases List.mem_append.mp h with h2 | h2
    · exact absurd (natToChars_all_digit i _ h2) (by decide)
    · rcases List.mem_cons.mp h2 with h3 | h3
      · exact absurd h3 (by decide)
      · rcases List.mem_append.mp h3 with h4 | h4
        · exact absurd (natToChars_all_digit _ _ h4) (by decide)
        · rcases List.mem_cons.mp h4 with h5 | h5
          · exact absurd h5 (by decide)
          · rcases List.mem_cons.mp h5 with h6 | h6
            · have hdig := digitChar_isDigit
                (Nat.mod_lt ((Int.floor (q * 10 + 1 / 2)).toNat) (by omega))
              rw [← h6] at hdig
              exact absurd hdig (by decide)
            · exact absurd h6 (by decide)

theorem parseResultPath_chunk (vid : String) (hvid : ∀ x ∈ vid.data, x ≠ '/')
    (i : Nat) (q : ℚ) :
    parseResultPath (vid ++ "/chunk_" ++ natToStr i ++ "_" ++ jsToFixed1 q ++ "s.txt") =
      (vid, jsToFixed1 q) := by
  rw [parseResultPath]
  rw [chunkPath_data vid i q]
  rw [splitOnChar_append _ hvid, splitOnChar_of_not_mem (fname_no_slash i q)]
  dsimp only [List.headI, List.drop]
  have h1 : (vid.data).asString = vid := rfl
  rw [h1]
  have h2 : chunkTimeOfFilename ((("chunk_").data ++ (natToChars i ++ ('_' ::
      (natToChars ((Int.floor (q * 10 + 1 / 2)).toNat / 10) ++ ('.' ::
        (digitChar ((Int.floor (q * 10 + 1 / 2)).toNat % 10) :: ("s.txt").data)))))).asString) =
      jsToFixed1 q := by
    rw [chunkTimeOfFilename, asString_data,
      chunkTimeSearch_of_at (chunkTimeAt_fname i _ _
        (natToChars_all_digit _) (natToChars_ne_nil _)
        (digitChar_isDigit (Nat.mod_lt _ (by omega))))]
    rw [show jsToFixed1 q = ((jsToFixed1 q).data).asString from rfl, jsToFixed1_data]
  rw [h2]

theorem charsToNat_singleton (c : Char) : charsToNat [c] = c.toNat - 48 := by
  simp [charsToNat]

theorem parseDecimal_digits (a : List Char) (ha : ∀ c ∈ a, c.isDigit = true)
    (b : Nat) (hb : b < 10) :
    parseDecimalChars (a ++ '.' :: [digitChar b]) = (charsToNat a : ℚ) + (b : ℚ) / 10 := by
  simp only [parseDecimalChars]
  rw [@takeWhile_append_of_all Char (fun c => c.isDigit) a ha _,
    takeWhile_cons_of_neg (by decide) _, List.append_nil,
    @dropWhile_append_of_all Char (fun c => c.isDigit) a ha _,
    dropWhile_cons_of_neg (by decide) _]
  dsimp only
  rw [if_pos rfl]
  rw [@takeWhile_cons_of_pos Char (fun c => c.isDigit) (digitChar b)
      (digitChar_isDigit hb) _]
  simp only [List.takeWhile_nil, List.length_cons, List.length_nil, pow_one,
    charsToNat_singleton, digitChar_toNat hb]
  norm_num

theorem nat_div_mod_tenths (n : Nat) :
    ((n / 10 : ℕ) : ℚ) + ((n % 10 : ℕ) : ℚ) / 10 = ((n : ℕ) : ℚ) / 10 := by
  have hdm : n / 10 * 10 + n % 10 = n := by omega
  field_simp
  exact_mod_cast congrArg (fun m : ℕ => (m : ℚ)) hdm

theorem parseDecimal_jsToFixed1 {q : ℚ} (hq : 0 ≤ q) :
    parseDecimal (jsToFixed1 q) = ((Int.floor (q * 10 + 1 / 2) : ℤ) : ℚ) / 10 := by
  have hfl : (0 : ℤ) ≤ Int.floor (q * 10 + 1 / 2) := by
    apply Int.floor_nonneg.mpr
    positivity
  rw [parseDecimal, jsToFixed1_data,
    parseDecimal_digits _ (natToChars_all_digit _) _ (Nat.mod_lt _ (by omega)),
    charsToNat_natToChars, nat_div_mod_tenths]
  congr 1
  exact_mod_cast congrArg (fun z : ℤ => (z : ℚ)) (Int.toNat_of_nonneg hfl)

theorem parseDecimal_jsToFixed1_exact {q : ℚ} (hq : 0 ≤ q) (z : ℤ)
    (hz : q * 10 = (z : ℚ)) : parseDecimal (jsToFixed1 q) = q := by
  rw [parseDecimal_jsToFixed1 hq]
  have hfl : Int.floor (q * 10 + 1 / 2) = z := by
    rw [hz]
    rw [Int.floor_eq_iff]
    constructor
    · norm_num
    · norm_num
  rw [hfl]
  rw [div_eq_iff (by norm_num : (10 : ℚ) ≠ 0)]
  linarith

/-- C9 (amended): every passage path has the form
`{videoId}/chunk_{startSegmentIndex}_{toFixed1(startTimeSeconds)}s.txt`; for a
slash-free video id and nonnegative offsets, the retrieval-time parse
recovers the video id exactly and the start time rounded to the nearest
tenth of a second (ties up), and recovers the start time exactly whenever
ten times the start time is an integer. -/
theorem path_roundtrip_amended (transcript : List TranscriptSegment) (vid : String)
    (hvid : ∀ x ∈ vid.data, x ≠ '/')
    (hoff : ∀ seg ∈ transcript, 0 ≤ seg.offset)
    (j : Nat) (hj : j < (chunkTranscript transcript vid).length) :
    parseResultPath ((chunkTranscript transcript vid).getD j default).path =
      (vid, jsToFixed1 ((chunkTranscript transcript vid).getD j default).startTime) ∧
    parseDecimal (jsToFixed1 ((chunkTranscript transcript vid).getD j default).startTime) =
      ((Int.floor (((chunkTranscript transcript vid).getD j default).startTime * 10 + 1 / 2) : ℤ) : ℚ) / 10 ∧
    (∀ z : ℤ, ((chunkTranscript transcript vid).getD j default).startTime * 10 = (z : ℚ) →
      parseDecimal (jsToFixed1 ((chunkTranscript transcript vid).getD j default).startTime) =
        ((chunkTranscript transcript vid).getD j default).startTime) := by
  have hget := chunkGo_getD vid (by omega : (0 : Nat) < 10) transcript.length transcript 0 j
    le_rfl hj
  have hchunk : (chunkTranscript transcript vid).getD j default =
      mkChunk vid (0 + 10 * j) ((transcript.drop (10 * j)).take 10) := hget
  have hlen := chunkGo_length vid (by omega : (0 : Nat) < 10) transcript.length transcript 0
    le_rfl
  have hjs : 10 * j < transcript.length := by
    have hj2 : j < (chunkGo vid 10 0 transcript).length := hj
    rw [hlen] at hj2
    have hmod := Nat.div_add_mod (transcript.length + 10 - 1) 10
    have hm := Nat.mod_lt (transcript.length + 10 - 1) (by omega : (0 : Nat) < 10)
    omega
  have hne : (transcript.drop (10 * j)).take 10 ≠ [] := by
    intro hnil
    have := congrArg List.length hnil
    simp only [List.length_take, List.length_drop, List.length_nil] at this
    omega
  have hmem : ((transcript.drop (10 * j)).take 10).headI ∈ transcript := by
    have h1 : ((transcript.drop (10 * j)).take 10).headI ∈
        (transcript.drop (10 * j)).take 10 := by
      rcases hgrp : (transcript.drop (10 * j)).take 10 with _ | ⟨a, t⟩
      · exact absurd hgrp hne
      · rw [List.headI_cons]
        exact List.mem_cons_self a t
    exact List.mem_of_mem_drop (List.mem_of_mem_take h1)
  have hq : 0 ≤ ((chunkTranscript transcript vid).getD j default).startTime := by
    rw [hchunk]
    show 0 ≤ ((transcript.drop (10 * j)).take 10).headI.offset / 1000
    exact div_nonneg (hoff _ hmem) (by norm_num)
  refine ⟨?_, parseDecimal_jsToFixed1 hq, fun z hz => parseDecimal_jsToFixed1_exact hq z hz⟩
  rw [hchunk]
  exact parseResultPath_chunk vid hvid (0 + 10 * j)
    (((transcript.drop (10 * j)).take 10).headI.offset / 1000)

theorem jsToFixed1_of_floor {q : ℚ} {n : Nat}
    (h : (Int.floor (q * 10 + 1 / 2)).toNat = n) :
    jsToFixed1 q = ((natToChars (n / 10)) ++ ('.' :: [digitChar (n % 10)])).asString := by
  rw [show jsToFixed1 q = ((jsToFixed1 q).data).asString from rfl, jsToFixed1_data, h]

/-- Counterexample for C9: the chunker writes the start time into the path
through `toFixed(1)`, so a passage starting at 1.25 s gets the path
`v/chunk_0_1.3s.txt`, and the retrieval-time parse recovers 1.3 s, not the
passage's start time 1.25 s. -/
theorem c9_counterexample :
    ((chunkTranscript [⟨"hello", 1250, 1000⟩] "v").getD 0 default).path =
      "v/chunk_0_1.3s.txt" ∧
    ((chunkTranscript [⟨"hello", 1250, 1000⟩] "v").getD 0 default).startTime = 5 / 4 ∧
    parseResultPath "v/chunk_0_1.3s.txt" = ("v", "1.3") ∧
    parseDecimal "1.3" = 13 / 10 ∧
    parseDecimal
        ((parseResultPath
          ((chunkTranscript [⟨"hello", 1250, 1000⟩] "v").getD 0 default).path).2) ≠
      ((chunkTranscript [⟨"hello", 1250, 1000⟩] "v").getD 0 default).startTime := by
  have hchunk : (chunkTranscript [(⟨"hello", 1250, 1000⟩ : TranscriptSegment)] "v").getD 0 default =
      mkChunk "v" 0 [⟨"hello", 1250, 1000⟩] := by
    rw [show chunkTranscript [(⟨"hello", 1250, 1000⟩ : TranscriptSegment)] "v" =
        chunkGo "v" 10 0 [⟨"hello", 1250, 1000⟩] from rfl, chunkGo_cons]
    dsimp only [List.take, List.drop]
    rw [chunkGo_nil]
    rfl
  have hfl : (Int.floor (((1250 : ℚ) / 1000) * 10 + 1 / 2)).toNat = 13 := by
    rw [show ((1250 : ℚ) / 1000) * 10 + 1 / 2 = ((13 : ℤ) : ℚ) by norm_num,
      Int.floor_intCast]
    rfl
  have htf : jsToFixed1 ((1250 : ℚ) / 1000) = "1.3" := by
    rw [jsToFixed1_of_floor hfl]
    rw [show (13 : ℕ) / 10 = 1 from rfl, show (13 : ℕ) % 10 = 3 from rfl,
      natToChars_lt_ten (by omega)]
    decide
  have hpath : ((chunkTranscript [(⟨"hello", 1250, 1000⟩ : TranscriptSegment)] "v").getD 0
      default).path = "v/chunk_0_1.3s.txt" := by
    rw [hchunk]
    show ("v" ++ "/chunk_" ++ natToStr 0 ++ "_" ++
      jsToFixed1 ((1250 : ℚ) / 1000) ++ "s.txt") = _
    rw [htf, natToStr, natToChars_lt_ten (by omega)]
    decide
  have hst : ((chunkTranscript [(⟨"hello", 1250, 1000⟩ : TranscriptSegment)] "v").getD 0
      default).startTime = 5 / 4 := by
    rw [hchunk]
    show (1250 : ℚ) / 1000 = 5 / 4
    norm_num
  have hparse : parseResultPath "v/chunk_0_1.3s.txt" = ("v", "1.3") := by decide
  have hdec : parseDecimal "1.3" = 13 / 10 := by
    rw [parseDecimal, show ("1.3").data = ['1'] ++ '.' :: [digitChar 3] from by decide,
      parseDecimal_digits ['1'] (by decide) 3 (by omega),
      show charsToNat ['1'] = 1 from by decide]
    norm_num
  refine ⟨hpath, hst, hparse, hdec, ?_⟩
  rw [hpath, hparse, hst, hdec]
  norm_num

/-- Witness for C9 (amended): a passage starting at 1.5 s round-trips
exactly through its path `w/chunk_0_1.5s.txt`. -/
theorem c9_amended_witness :
    (∀ x ∈ ("w").data, x ≠ '/') ∧
    0 < (chunkTranscript [⟨"x", 1500, 100⟩] "w").length ∧
    parseResultPath ((chunkTranscript [⟨"x", 1500, 100⟩] "w").getD 0 default).path =
      ("w", "1.5") ∧
    parseDecimal "1.5" =
      ((chunkTranscript [⟨"x", 1500, 100⟩] "w").getD 0 default).startTime := by
  have hlen : (chunkTranscript [(⟨"x", 1500, 100⟩ : TranscriptSegment)] "w").length = 1 := by
    have h := chunkGo_length "w" (by omega : (0 : Nat) < 10) 1 [⟨"x", 1500, 100⟩] 0 (by simp)
    simpa using h
  have hchunk : (chunkTranscript [(⟨"x", 1500, 100⟩ : TranscriptSegment)] "w").getD 0 default =
      mkChunk "w" 0 [⟨"x", 1500, 100⟩] := by
    rw [show chunkTranscript [(⟨"x", 1500, 100⟩ : TranscriptSegment)] "w" =
        chunkGo "w" 10 0 [⟨"x", 1500, 100⟩] from rfl, chunkGo_cons]
    dsimp only [List.take, List.drop]
    rw [chunkGo_nil]
    rfl
  have hfl : (Int.floor (((1500 : ℚ) / 1000) * 10 + 1 / 2)).toNat = 15 := by
    rw [show ((1500 : ℚ) / 1000) * 10 + 1 / 2 = ((15 : ℤ) : ℚ) + 1 / 2 by norm_num]
    rw [show Int.floor (((15 : ℤ) : ℚ) + 1 / 2) = 15 by
      rw [Int.floor_eq_iff] <;> norm_num]
    rfl
  have htf : jsToFixed1 ((1500 : ℚ) / 1000) = "1.5" := by
    rw [jsToFixed1_of_floor hfl]
    rw [show (15 : ℕ) / 10 = 1 from rfl, show (15 : ℕ) % 10 = 5 from rfl,
      natToChars_lt_ten (by omega)]
    decide
  have H := path_roundtrip_amended [⟨"x", 1500, 100⟩] "w" (by decide)
    (by
      intro seg hseg
      rw [List.mem_singleton] at hseg
      subst hseg
      norm_num) 0 (by omega)
  have hst : (mkChunk "w" 0 [(⟨"x", 1500, 100⟩ : TranscriptSegment)]).startTime =
      (1500 : ℚ) / 1000 := rfl
  refine ⟨by decide, by omega, ?_, ?_⟩
  · have h1 := H.1
    rw [hchunk, hst, htf] at h1
    rw [hchunk]
    exact h1
  · have h2 := H.2.2 15 (by rw [hchunk, hst]; norm_num)
    rw [hchunk, hst, htf] at h2
    rw [hchunk, hst]
    exact h2


/-! ## Helper lemmas: the citation-token grammar, the citation regex, and the
renderer loop (C7) -/
theorem tokText_data (t : CitationTok) :
    (tokText t).data = ("[video_id:").data ++ (' ' :: (t.id.data ++ (',' :: (' ' ::
      (("time:").data ++ (' ' :: (t.secs.data ++
        ((if t.hasS then ['s'] else []) ++ [']']))))))))  := by
  cases t with
  | mk id secs hasS =>
    cases hasS <;>
      simp [tokText, String.data_append, List.append_assoc]

theorem idChar_not_ws {c : Char} (h : idChar c = true) : jsWhitespace c = false := by
  by_contra hw
  rw [Bool.not_eq_false, jsWhitespace] at hw
  simp only [Bool.or_eq_true, decide_eq_true_eq] at hw
  rcases hw with ((((rfl | rfl) | rfl) | rfl) | rfl) | rfl <;> exact absurd h (by decide)

theorem isDigit_not_ws {c : Char} (h : c.isDigit = true) : jsWhitespace c = false := by
  by_contra hw
  rw [Bool.not_eq_false, jsWhitespace] at hw
  simp only [Bool.or_eq_true, decide_eq_true_eq] at hw
  rcases hw with ((((rfl | rfl) | rfl) | rfl) | rfl) | rfl <;> exact absurd h (by decide)

theorem takeWhile_all {α : Type} {p : α → Bool} {l : List α}
    (h : ∀ x ∈ l, p x = true) : l.takeWhile p = l := by
  have := @takeWhile_append_of_all α p l h []
  simpa using this

theorem dropWhile_all {α : Type} {p : α → Bool} {l : List α}
    (h : ∀ x ∈ l, p x = true) : l.dropWhile p = [] := by
  have := @dropWhile_append_of_all α p l h []
  simpa using this

theorem data_asString (s : String) : (s.data).asString = s := rfl

theorem secsWellFormed_shape {l : List Char} (h : secsWellFormed l = true) :
    ∃ d, d ≠ [] ∧ (∀ c ∈ d, c.isDigit = true) ∧
      (l = d ∨ ∃ f, (∀ c ∈ f, c.isDigit = true) ∧ l = d ++ '.' :: f) := by
  have hsplit : l.takeWhile (fun c => c.isDigit) ++ l.dropWhile (fun c => c.isDigit) = l :=
    List.takeWhile_append_dropWhile _ _
  have hdig : ∀ c ∈ l.takeWhile (fun c => c.isDigit), c.isDigit = true := by
    intro c hc
    exact List.mem_takeWhile_imp hc
  rw [secsWellFormed] at h
  cases htw : l.takeWhile (fun c => c.isDigit) with
  | nil =>
    rw [htw] at h
    dsimp only at h
    cases h
  | cons c0 ctl =>
    rw [htw] at h hsplit hdig
    cases hdw : l.dropWhile (fun c => c.isDigit) with
    | nil =>
      rw [hdw] at hsplit
      refine ⟨c0 :: ctl, by simp, hdig, Or.inl ?_⟩
      rw [← hsplit, List.append_nil]
    | cons x xs =>
      rw [hdw] at h hsplit
      dsimp only at h
      simp only [Bool.and_eq_true, decide_eq_true_eq, List.all_eq_true] at h
      obtain ⟨rfl, hxs⟩ := h
      exact ⟨c0 :: ctl, by simp, hdig, Or.inr ⟨xs, hxs, hsplit.symm⟩⟩

theorem parseDecimal_intOnly (a : List Char) (ha : ∀ c ∈ a, c.isDigit = true) :
    parseDecimalChars a = (charsToNat a : ℚ) := by
  simp only [parseDecimalChars]
  rw [takeWhile_all ha, dropWhile_all ha]

theorem parseDecimal_frac (a f : List Char) (ha : ∀ c ∈ a, c.isDigit = true)
    (hf : ∀ c ∈ f, c.isDigit = true) :
    parseDecimalChars (a ++ '.' :: f) =
      (charsToNat a : ℚ) + (charsToNat f : ℚ) / (10 : ℚ) ^ f.length := by
  simp only [parseDecimalChars]
  rw [@takeWhile_append_of_all Char (fun c => c.isDigit) a ha _,
    takeWhile_cons_of_neg (by decide) _, List.append_nil,
    @dropWhile_append_of_all Char (fun c => c.isDigit) a ha _,
    dropWhile_cons_of_neg (by decide) _]
  dsimp only
  rw [if_pos rfl]
  rw [takeWhile_all hf]

theorem takeWhile_append_nil {α : Type} {p : α → Bool} {l : List α} (hl : l ≠ [])
    (h : ∀ x ∈ l, p x = false) (X : List α) : (l ++ X).takeWhile p = [] := by
  cases l with
  | nil => exact absurd rfl hl
  | cons a as => exact takeWhile_cons_of_neg (h a (List.mem_cons_self a as)) (as ++ X)

theorem dropWhile_append_id {α : Type} {p : α → Bool} {l : List α} (hl : l ≠ [])
    (h : ∀ x ∈ l, p x = false) (X : List α) : (l ++ X).dropWhile p = l ++ X := by
  cases l with
  | nil => exact absurd rfl hl
  | cons a as => exact dropWhile_cons_of_neg (h a (List.mem_cons_self a as)) (as ++ X)

theorem citeAt_shape_int (idL dL rest : List Char) (hidne : idL ≠ [])
    (hidall : ∀ c ∈ idL, idChar c = true) (hdne : dL ≠ [])
    (hdall : ∀ c ∈ dL, c.isDigit = true) :
    citeAt (("[video_id:").data ++ (' ' :: (idL ++ (',' :: (' ' ::
        (("time:").data ++ (' ' :: (dL ++ (']' :: rest))))))))) =
      some { full := ("[video_id:").data ++ (' ' :: (idL ++ (',' :: (' ' ::
               (("time:").data ++ (' ' :: (dL ++ ([']'])))))))),
             videoId := idL.asString, timeStr := dL } := by
  dsimp only [citeAt]
  rw [if_pos (charsIsPrefix_append_self _ _)]
  rw [show (10 : Nat) = (("[video_id:").data).length from rfl, List.drop_left]
  rw [takeWhile_cons_of_pos (by decide) _, dropWhile_cons_of_pos (by decide) _]
  rw [takeWhile_append_nil hidne (fun c hc => idChar_not_ws (hidall c hc)) _,
    dropWhile_append_id hidne (fun c hc => idChar_not_ws (hidall c hc)) _]
  rw [@takeWhile_append_of_all Char idChar idL hidall _,
    takeWhile_cons_of_neg (by decide) _, List.append_nil,
    @dropWhile_append_of_all Char idChar idL hidall _,
    dropWhile_cons_of_neg (by decide) _]
  rw [if_neg hidne]
  dsimp only
  rw [if_pos rfl]
  rw [takeWhile_cons_of_pos (by decide) _, dropWhile_cons_of_pos (by decide) _]
  rw [takeWhile_append_nil (by decide) (by decide) _,
    dropWhile_append_id (by decide) (by decide) _]
  rw [if_pos (charsIsPrefix_append_self _ _)]
  rw [show (5 : Nat) = (("time:").data).length from rfl, List.drop_left]
  rw [takeWhile_cons_of_pos (by decide) _, dropWhile_cons_of_pos (by decide) _]
  rw [takeWhile_append_nil hdne (fun c hc => isDigit_not_ws (hdall c hc)) _,
    dropWhile_append_id hdne (fun c hc => isDigit_not_ws (hdall c hc)) _]
  rw [@takeWhile_append_of_all Char (fun c => c.isDigit) dL hdall _,
    takeWhile_cons_of_neg (by decide) _, List.append_nil,
    @dropWhile_append_of_all Char (fun c => c.isDigit) dL hdall _,
    dropWhile_cons_of_neg (by decide) _]
  rw [if_neg hdne]
  dsimp only
  rw [if_neg (by decide : ¬(']' = '.')), if_neg (by decide : ¬(']' = 's')), if_pos rfl]
  simp only [List.cons_append, List.nil_append, List.append_assoc,
    List.singleton_append, List.append_nil]

theorem citeAt_shape_int_s (idL dL rest : List Char) (hidne : idL ≠ [])
    (hidall : ∀ c ∈ idL, idChar c = true) (hdne : dL ≠ [])
    (hdall : ∀ c ∈ dL, c.isDigit = true) :
    citeAt (("[video_id:").data ++ (' ' :: (idL ++ (',' :: (' ' ::
        (("time:").data ++ (' ' :: (dL ++ ('s' :: (']' :: rest)))))))))) =
      some { full := ("[video_id:").data ++ (' ' :: (idL ++ (',' :: (' ' ::
               (("time:").data ++ (' ' :: (dL ++ (['s', ']'])))))))),
             videoId := idL.asString, timeStr := dL } := by
  dsimp only [citeAt]
  rw [if_pos (charsIsPrefix_append_self _ _)]
  rw [show (10 : Nat) = (("[video_id:").data).length from rfl, List.drop_left]
  rw [takeWhile_cons_of_pos (by decide) _, dropWhile_cons_of_pos (by decide) _]
  rw [takeWhile_append_nil hidne (fun c hc => idChar_not_ws (hidall c hc)) _,
    dropWhile_append_id hidne (fun c hc => idChar_not_ws (hidall c hc)) _]
  rw [@takeWhile_append_of_all Char idChar idL hidall _,
    takeWhile_cons_of_neg (by decide) _, List.append_nil,
    @dropWhile_append_of_all Char idChar idL hidall _,
    dropWhile_cons_of_neg (by decide) _]
  rw [if_neg hidne]
  dsimp only
  rw [if_pos rfl]
  rw [takeWhile_cons_of_pos (by decide) _, dropWhile_cons_of_pos (by decide) _]
  rw [takeWhile_append_nil (by decide) (by decide) _,
    dropWhile_append_id (by decide) (by decide) _]
  rw [if_pos (charsIsPrefix_append_self _ _)]
  rw [show (5 : Nat) = (("time:").data).length from rfl, List.drop_left]
  rw [takeWhile_cons_of_pos (by decide) _, dropWhile_cons_of_pos (by decide) _]
  rw [takeWhile_append_nil hdne (fun c hc => isDigit_not_ws (hdall c hc)) _,
    dropWhile_append_id hdne (fun c hc => isDigit_not_ws (hdall c hc)) _]
  rw [@takeWhile_append_of_all Char (fun c => c.isDigit) dL hdall _,
    takeWhile_cons_of_neg (by decide) _, List.append_nil,
    @dropWhile_append_of_all Char (fun c => c.isDigit) dL hdall _,
    dropWhile_cons_of_neg (by decide) _]
  rw [if_neg hdne]
  dsimp only
  rw [if_neg (by decide : ¬('s' = '.')), if_pos rfl, if_pos rfl]
  simp only [List.cons_append, List.nil_append, List.append_assoc,
    List.singleton_append, List.append_nil]

theorem citeAt_shape_frac (idL dL fL rest : List Char) (hidne : idL ≠ [])
    (hidall : ∀ c ∈ idL, idChar c = true) (hdne : dL ≠ [])
    (hdall : ∀ c ∈ dL, c.isDigit = true) (hfall : ∀ c ∈ fL, c.isDigit = true) :
    citeAt (("[video_id:").data ++ (' ' :: (idL ++ (',' :: (' ' ::
        (("time:").data ++ (' ' :: (dL ++ ('.' :: (fL ++ (']' :: rest))))))))))) =
      some { full := ("[video_id:").data ++ (' ' :: (idL ++ (',' :: (' ' ::
               (("time:").data ++ (' ' :: (dL ++ ('.' :: (fL ++ ([']'])))))))))),
             videoId := idL.asString, timeStr := dL ++ ('.' :: fL) } := by
  dsimp only [citeAt]
  rw [if_pos (charsIsPrefix_append_self _ _)]
  rw [show (10 : Nat) = (("[video_id:").data).length from rfl, List.drop_left]
  rw [takeWhile_cons_of_pos (by decide) _, dropWhile_cons_of_pos (by decide) _]
  rw [takeWhile_append_nil hidne (fun c hc => idChar_not_ws (hidall c hc)) _,
    dropWhile_append_id hidne (fun c hc => idChar_not_ws (hidall c hc)) _]
  rw [@takeWhile_append_of_all Char idChar idL hidall _,
    takeWhile_cons_of_neg (by decide) _, List.append_nil,
    @dropWhile_append_of_all Char idChar idL hidall _,
    dropWhile_cons_of_neg (by decide) _]
  rw [if_neg hidne]
  dsimp only
  rw [if_pos rfl]
  rw [takeWhile_cons_of_pos (by decide) _, dropWhile_cons_of_pos (by decide) _]
  rw [takeWhile_append_nil (by decide) (by decide) _,
    dropWhile_append_id (by decide) (by decide) _]
  rw [if_pos (charsIsPrefix_append_self _ _)]
  rw [show (5 : Nat) = (("time:").data).length from rfl, List.drop_left]
  rw [takeWhile_cons_of_pos (by decide) _, dropWhile_cons_of_pos (by decide) _]
  rw [takeWhile_append_nil hdne (fun c hc => isDigit_not_ws (hdall c hc)) _,
    dropWhile_append_id hdne (fun c hc => isDigit_not_ws (hdall c hc)) _]
  rw [@takeWhile_append_of_all Char (fun c => c.isDigit) dL hdall _,
    takeWhile_cons_of_neg (by decide) _, List.append_nil,
    @dropWhile_append_of_all Char (fun c => c.isDigit) dL hdall _,
    dropWhile_cons_of_neg (by decide) _]
  rw [if_neg hdne]
  dsimp only
  rw [if_pos rfl]
  rw [@takeWhile_append_of_all Char (fun c => c.isDigit) fL hfall _,
    takeWhile_cons_of_neg (by decide) _, List.append_nil,
    @dropWhile_append_of_all Char (fun c => c.isDigit) fL hfall _,
    dropWhile_cons_of_neg (by decide) _]
  dsimp only
  rw [if_neg (by decide : ¬(']' = 's')), if_pos rfl]
  simp only [List.cons_append, List.nil_append, List.append_assoc,
    List.singleton_append, List.append_nil]

theorem citeAt_shape_frac_s (idL dL fL rest : List Char) (hidne : idL ≠ [])
    (hidall : ∀ c ∈ idL, idChar c = true) (hdne : dL ≠ [])
    (hdall : ∀ c ∈ dL, c.isDigit = true) (hfall : ∀ c ∈ fL, c.isDigit = true) :
    citeAt (("[video_id:").data ++ (' ' :: (idL ++ (',' :: (' ' ::
        (("time:").data ++ (' ' :: (dL ++ ('.' :: (fL ++ ('s' :: (']' :: rest)))))))))))) =
      some { full := ("[video_id:").data ++ (' ' :: (idL ++ (',' :: (' ' ::
               (("time:").data ++ (' ' :: (dL ++ ('.' :: (fL ++ (['s', ']'])))))))))),
             videoId := idL.asString, timeStr := dL ++ ('.' :: fL) } := by
  dsimp only [citeAt]
  rw [if_pos (charsIsPrefix_append_self _ _)]
  rw [show (10 : Nat) = (("[video_id:").data).length from rfl, List.drop_left]
  rw [takeWhile_cons_of_pos (by decide) _, dropWhile_cons_of_pos (by decide) _]
  rw [takeWhile_append_nil hidne (fun c hc => idChar_not_ws (hidall c hc)) _,
    dropWhile_append_id hidne (fun c hc => idChar_not_ws (hidall c hc)) _]
  rw [@takeWhile_append_of_all Char idChar idL hidall _,
    takeWhile_cons_of_neg (by decide) _, List.append_nil,
    @dropWhile_append_of_all Char idChar idL hidall _,
    dropWhile_cons_of_neg (by decide) _]
  rw [if_neg hidne]
  dsimp only
  rw [if_pos rfl]
  rw [takeWhile_cons_of_pos (by decide) _, dropWhile_cons_of_pos (by decide) _]
  rw [takeWhile_append_nil (by decide) (by decide) _,
    dropWhile_append_id (by decide) (by decide) _]
  rw [if_pos (charsIsPrefix_append_self _ _)]
  rw [show (5 : Nat) = (("time:").data).length from rfl, List.drop_left]
  rw [takeWhile_cons_of_pos (by decide) _, dropWhile_cons_of_pos (by decide) _]
  rw [takeWhile_append_nil hdne (fun c hc => isDigit_not_ws (hdall c hc)) _,
    dropWhile_append_id hdne (fun c hc => isDigit_not_ws (hdall c hc)) _]
  rw [@takeWhile_append_of_all Char (fun c => c.isDigit) dL hdall _,
    takeWhile_cons_of_neg (by decide) _, List.append_nil,
    @dropWhile_append_of_all Char (fun c => c.isDigit) dL hdall _,
    dropWhile_cons_of_neg (by decide) _]
  rw [if_neg hdne]
  dsimp only
  rw [if_pos rfl]
  rw [@takeWhile_append_of_all Char (fun c => c.isDigit) fL hfall _,
    takeWhile_cons_of_neg (by decide) _, List.append_nil,
    @dropWhile_append_of_all Char (fun c => c.isDigit) fL hfall _,
    dropWhile_cons_of_neg (by decide) _]
  dsimp only
  rw [if_pos rfl, if_pos rfl]
  simp only [List.cons_append, List.nil_append, List.append_assoc,
    List.singleton_append, List.append_nil]

theorem citeAt_tok (t : CitationTok) (rest : List Char) (hWF : tokWellFormed t = true) :
    citeAt ((tokText t).data ++ rest) =
      some { full := (tokText t).data, videoId := (t.id.data).asString,
             timeStr := t.secs.data } := by
  rw [tokWellFormed] at hWF
  simp only [Bool.and_eq_true, Bool.not_eq_true', List.all_eq_true] at hWF
  obtain ⟨⟨hne, hall⟩, hsecs⟩ := hWF
  have hidne : t.id.data ≠ [] := by
    intro h
    rw [h] at hne
    exact absurd hne (by decide)
  obtain ⟨d, hdne, hddig, hcase⟩ := secsWellFormed_shape hsecs
  rw [tokText_data]
  rcases hcase with hsd | ⟨f, hfdig, hsd⟩
  · rw [hsd]
    cases hh : t.hasS
    · rw [if_neg (by decide : ¬(false = true))]
      have h := citeAt_shape_int t.id.data d rest hidne hall hdne hddig
      simp only [List.append_assoc, List.cons_append, List.singleton_append,
        List.nil_append] at h ⊢
      exact h
    · rw [if_pos rfl]
      have h := citeAt_shape_int_s t.id.data d rest hidne hall hdne hddig
      simp only [List.append_assoc, List.cons_append, List.singleton_append,
        List.nil_append] at h ⊢
      exact h
  · rw [hsd]
    cases hh : t.hasS
    · rw [if_neg (by decide : ¬(false = true))]
      have h := citeAt_shape_frac t.id.data d f rest hidne hall hdne hddig hfdig
      simp only [List.append_assoc, List.cons_append, List.singleton_append,
        List.nil_append] at h ⊢
      exact h
    · rw [if_pos rfl]
      have h := citeAt_shape_frac_s t.id.data d f rest hidne hall hdne hddig hfdig
      simp only [List.append_assoc, List.cons_append, List.singleton_append,
        List.nil_append] at h ⊢
      exact h

theorem citeAt_none_head {x : Char} (xs : List Char) (hx : x ≠ '[') :
    citeAt (x :: xs) = none := by
  have hpre : ¬ (charsIsPrefix (("[video_id:").data) (x :: xs) = true) := by
    intro h
    obtain ⟨t2, ht⟩ := (charsIsPrefix_iff _ _).mp h
    rw [show ("[video_id:").data ++ t2 = '[' :: (("video_id:").data ++ t2) from rfl] at ht
    injection ht with h1 h2
    exact hx h1.symm
  dsimp only [citeAt]
  rw [if_neg hpre]

theorem renderGo_succ (videos : String → Option VideoInfo) (counter n : Nat)
    (acc : List Char) (x : Char) (xs : List Char) :
    renderGo videos counter (n + 1) acc (x :: xs) = renderGo videos counter n acc xs := rfl

theorem renderGo_skip (videos : String → Option VideoInfo) (counter : Nat) :
    ∀ (l : List Char) (acc rest : List Char),
      renderGo videos counter l.length acc (l ++ rest) =
        renderGo videos counter 0 acc rest := by
  intro l
  induction l with
  | nil => intro acc rest; rfl
  | cons x xs ih =>
    intro acc rest
    rw [List.length_cons, List.cons_append, renderGo_succ]
    exact ih acc rest

theorem renderGo_cons_none (videos : String → Option VideoInfo) (counter : Nat)
    (acc : List Char) {x : Char} {xs : List Char} (h : citeAt (x :: xs) = none) :
    renderGo videos counter 0 acc (x :: xs) =
      renderGo videos counter 0 (x :: acc) xs := by
  dsimp only [renderGo]
  rw [h]

theorem renderGo_raw (videos : String → Option VideoInfo) (counter : Nat) :
    ∀ (raw : List Char), (∀ c ∈ raw, c ≠ '[') → ∀ (acc rest : List Char),
      renderGo videos counter 0 acc (raw ++ rest) =
        renderGo videos counter 0 (raw.reverse ++ acc) rest := by
  intro raw
  induction raw with
  | nil =>
    intro h acc rest
    simp only [List.nil_append, List.reverse_nil]
  | cons r rs ih =>
    intro h acc rest
    rw [List.cons_append,
      renderGo_cons_none videos counter acc (citeAt_none_head _ (h r (List.mem_cons_self r rs))),
      ih (fun c hc => h c (List.mem_cons_of_mem _ hc)) (r :: acc) rest]
    simp only [List.reverse_cons, List.append_assoc, List.cons_append, List.nil_append]

theorem renderGo_tok (videos : String → Option VideoInfo) (counter : Nat)
    (acc : List Char) (t : CitationTok) (rest : List Char)
    (hWF : tokWellFormed t = true) :
    renderGo videos counter 0 acc ((tokText t).data ++ rest) =
      (if acc = [] then [] else [RenderedElement.textSeg acc.reverse.asString]) ++
      (match videos t.id with
       | some info => mkCitationElement counter info (parseDecimal t.secs) ::
           renderGo videos (counter + 1) 0 [] rest
       | none => RenderedElement.fallback (tokText t) ::
           renderGo videos counter 0 [] rest) := by
  obtain ⟨tl, htl⟩ : ∃ tl, (tokText t).data = '[' :: tl := by
    rw [tokText_data]
    exact ⟨_, rfl⟩
  have hc : citeAt ('[' :: (tl ++ rest)) =
      some { full := '[' :: tl, videoId := (t.id.data).asString,
             timeStr := t.secs.data } := by
    have h := citeAt_tok t rest hWF
    rw [htl] at h
    rw [List.cons_append] at h
    exact h
  rw [htl, List.cons_append]
  dsimp only [renderGo]
  rw [hc]
  dsimp only
  rw [data_asString, List.length_cons, Nat.add_sub_cancel, renderGo_skip,
    renderGo_skip, ← htl, ← parseDecimal]
  cases videos t.id <;> rfl

theorem string_eq_empty_iff (s : String) : s = "" ↔ s.data = [] := by
  constructor
  · intro h
    rw [h]
  · intro h
    obtain ⟨d⟩ := s
    dsimp only at h
    rw [h]

theorem plainSeg_chars {s : String} (h : plainSeg s = true) : ∀ c ∈ s.data, c ≠ '[' := by
  simp only [plainSeg, List.all_eq_true, bne_iff_ne] at h
  exact h

theorem renderGo_spec (videos : String → Option VideoInfo) :
    ∀ (ps : List (String × CitationTok)) (trail : String) (counter : Nat),
      (∀ p ∈ ps, plainSeg p.1 = true ∧ tokWellFormed p.2 = true) →
      plainSeg trail = true →
      renderGo videos counter 0 [] ((buildMessage ps trail).data) =
        specRender videos counter ps trail := by
  intro ps
  induction ps with
  | nil =>
    intro trail counter hps htr
    dsimp only [buildMessage, specRender]
    have h := renderGo_raw videos counter trail.data (plainSeg_chars htr) [] []
    rw [List.append_nil, List.append_nil] at h
    rw [h]
    dsimp only [renderGo]
    rw [List.reverse_reverse, data_asString]
    by_cases h0 : trail = ""
    · rw [if_pos (by rw [(string_eq_empty_iff trail).mp h0, List.reverse_nil] :
          trail.data.reverse = []), if_pos h0]
    · rw [if_neg (fun hr => h0 ((string_eq_empty_iff trail).mpr
          (List.reverse_eq_nil_iff.mp hr))), if_neg h0]
  | cons p ps ih =>
    obtain ⟨raw, t⟩ := p
    intro trail counter hps htr
    obtain ⟨hraw, htok⟩ := hps (raw, t) (List.mem_cons_self _ _)
    dsimp only at hraw htok
    have hps' : ∀ q ∈ ps, plainSeg q.1 = true ∧ tokWellFormed q.2 = true :=
      fun q hq => hps q (List.mem_cons_of_mem _ hq)
    dsimp only [buildMessage, specRender]
    rw [String.data_append, String.data_append, List.append_assoc]
    rw [renderGo_raw videos counter raw.data (plainSeg_chars hraw) [] _]
    rw [List.append_nil]
    rw [renderGo_tok videos counter _ t _ htok]
    rw [List.reverse_reverse, data_asString]
    have hpre : (if raw.data.reverse = [] then ([] : List RenderedElement)
          else [RenderedElement.textSeg raw]) =
        (if raw = "" then [] else [RenderedElement.textSeg raw]) := by
      by_cases h0 : raw = ""
      · rw [if_pos (by rw [(string_eq_empty_iff raw).mp h0, List.reverse_nil] :
            raw.data.reverse = []), if_pos h0]
      · rw [if_neg (fun hr => h0 ((string_eq_empty_iff raw).mpr
            (List.reverse_eq_nil_iff.mp hr))), if_neg h0]
    rw [hpre]
    cases videos t.id
    · rw [ih trail counter hps' htr]
    · dsimp only [mkCitationElement]
      rw [ih trail (counter + 1) hps' htr]

theorem natToChars_ge_ten {n : Nat} (h : ¬ n < 10) :
    natToChars n = natToChars (n / 10) ++ [digitChar (n % 10)] := by
  rw [natToChars, dif_neg h]

theorem jsToFixed1_int_arg {q : ℚ} {n : Nat} (h : q * 10 + 1 / 2 = ((n : ℤ) : ℚ)) :
    jsToFixed1 q = ((natToChars (n / 10)) ++ ('.' :: [digitChar (n % 10)])).asString := by
  apply jsToFixed1_of_floor
  rw [h, Int.floor_intCast, Int.toNat_natCast]

theorem jsToFixed1_tenths {q : ℚ} {n : Nat} (h : q * 10 = ((n : ℤ) : ℚ)) :
    jsToFixed1 q = ((natToChars (n / 10)) ++ ('.' :: [digitChar (n % 10)])).asString := by
  apply jsToFixed1_of_floor
  have hfl : Int.floor (q * 10 + 1 / 2) = ((n : ℕ) : ℤ) := by
    rw [h, Int.floor_eq_iff]
    constructor
    · norm_num
    · norm_num
  rw [hfl, Int.toNat_natCast]

/-- C7 counterexample: the hover metadata is not the exact timestamp.  For the
citation token `[video_id: a, time: 2.25]` on a known video, the renderer
emits marker 1 with the correctly floored link `t=2s`, but the hover title
carries `2.3s` — the timestamp rounded by `toFixed(1)` — which differs from
the token's exact seconds literal `2.25`. -/
theorem citation_hover_rounds :
    renderCitations "[video_id: a, time: 2.25]"
        (fun i => if i = "a" then some ⟨"Y", "T"⟩ else none) =
      [RenderedElement.citation 1 "https://www.youtube.com/watch?v=Y&t=2s"
        "Go to \"T\" at 2.3s"] ∧
    ("Go to \"T\" at 2.3s" : String) ≠ "Go to \"T\" at " ++ "2.25" ++ "s" := by
  have e225 : parseDecimal "2.25" = 9 / 4 := by
    rw [parseDecimal, show ("2.25").data = ['2'] ++ '.' :: ['2', '5'] from rfl,
      parseDecimal_frac _ _ (by decide) (by decide),
      show charsToNat ['2'] = 2 from by decide,
      show charsToNat ['2', '5'] = 25 from by decide]
    norm_num
  have hfl : floorNat ((9 : ℚ) / 4) = 2 := by
    rw [floorNat, show Int.floor ((9 : ℚ) / 4) = 2 from by
      rw [Int.floor_eq_iff] <;> norm_num]
    rfl
  have hfx : jsToFixed1 ((9 : ℚ) / 4) = "2.3" := by
    rw [jsToFixed1_int_arg (show (9 : ℚ) / 4 * 10 + 1 / 2 = (((23 : ℕ) : ℤ) : ℚ) by
        norm_num),
      show (23 : ℕ) / 10 = 2 from rfl, show (23 : ℕ) % 10 = 3 from rfl,
      natToChars_lt_ten (by decide)]
    decide
  constructor
  · rw [renderCitations,
      show ("[video_id: a, time: 2.25]").data =
        (tokText (CitationTok.mk "a" "2.25" false)).data ++ [] from by decide,
      renderGo_tok _ 1 [] _ [] (by decide)]
    rw [if_pos rfl]
    dsimp only
    rw [if_pos rfl]
    dsimp only [mkCitationElement]
    rw [e225, hfl, hfx,
      show renderGo (fun i => if i = "a" then some (⟨"Y", "T"⟩ : VideoInfo) else none)
        2 0 [] [] = [] from rfl]
    rw [List.nil_append]
    rw [natToStr, natToChars_lt_ten (by decide)]
    decide
  · decide

/-- C7 (amended): scanning a generated message left to right, each well-formed
citation token `[video_id: <ID>, time: <SECONDS>[s]]` whose id is in the
known-video map becomes the sequential marker `[n]` (n starting at 1 in
emission order) hyperlinked to the watch URL with `t=floor(seconds)s`, with
the video title and the timestamp rounded by `toFixed(1)` — not the exact
timestamp — as hover metadata; an unknown-id token stays as the literal token
text; plain segments pass through unchanged. -/
theorem citation_rendering_amended (videos : String → Option VideoInfo)
    (ps : List (String × CitationTok)) (trail : String)
    (hps : ∀ p ∈ ps, plainSeg p.1 = true ∧ tokWellFormed p.2 = true)
    (htrail : plainSeg trail = true) :
    renderCitations (buildMessage ps trail) videos = specRender videos 1 ps trail := by
  rw [renderCitations]
  exact renderGo_spec videos ps trail 1 hps htrail

/-- Witness for `citation_rendering_amended`: a message with two known-id
citations and one unknown-id citation renders to markers `[1]` and `[2]` with
their floored links and `toFixed(1)` hover titles, the unknown token kept
literal, and all plain segments unchanged. -/
theorem citation_rendering_amended_witness :
    renderCitations
        "see [video_id: a, time: 10] and [video_id: b, time: 20.5s] plus [video_id: zz, time: 3] done"
        (fun i => if i = "a" then some ⟨"YA", "TA"⟩
                  else if i = "b" then some ⟨"YB", "TB"⟩ else none) =
      [RenderedElement.textSeg "see ",
       RenderedElement.citation 1 "https://www.youtube.com/watch?v=YA&t=10s"
         "Go to \"TA\" at 10.0s",
       RenderedElement.textSeg " and ",
       RenderedElement.citation 2 "https://www.youtube.com/watch?v=YB&t=20s"
         "Go to \"TB\" at 20.5s",
       RenderedElement.textSeg " plus ",
       RenderedElement.fallback "[video_id: zz, time: 3]",
       RenderedElement.textSeg " done"] := by
  have e1 : parseDecimal "10" = 10 := by
    rw [parseDecimal, show ("10").data = ['1', '0'] from rfl,
      parseDecimal_intOnly _ (by decide), show charsToNat ['1', '0'] = 10 from by decide]
    norm_num
  have e2 : parseDecimal "20.5" = 41 / 2 := by
    rw [parseDecimal, show ("20.5").data = ['2', '0'] ++ '.' :: ['5'] from rfl,
      parseDecimal_frac _ _ (by decide) (by decide),
      show charsToNat ['2', '0'] = 20 from by decide,
      show charsToNat ['5'] = 5 from by decide]
    norm_num
  have f1 : floorNat (10 : ℚ) = 10 := by
    rw [floorNat, show ((10 : ℚ)) = (((10 : ℕ) : ℤ) : ℚ) by norm_num, Int.floor_intCast,
      Int.toNat_natCast]
  have f2 : floorNat ((41 : ℚ) / 2) = 20 := by
    rw [floorNat, show Int.floor ((41 : ℚ) / 2) = 20 from by
      rw [Int.floor_eq_iff] <;> norm_num]
    rfl
  have g1 : jsToFixed1 (10 : ℚ) = "10.0" := by
    rw [jsToFixed1_tenths (show (10 : ℚ) * 10 = (((100 : ℕ) : ℤ) : ℚ) by norm_num),
      show (100 : ℕ) / 10 = 10 from rfl, show (100 : ℕ) % 10 = 0 from rfl,
      natToChars_ge_ten (by decide), show (10 : ℕ) / 10 = 1 from rfl,
      show (10 : ℕ) % 10 = 0 from rfl, natToChars_lt_ten (by decide)]
    decide
  have g2 : jsToFixed1 ((41 : ℚ) / 2) = "20.5" := by
    rw [jsToFixed1_tenths (show (41 : ℚ) / 2 * 10 = (((205 : ℕ) : ℤ) : ℚ) by norm_num),
      show (205 : ℕ) / 10 = 20 from rfl, show (205 : ℕ) % 10 = 5 from rfl,
      natToChars_ge_ten (by decide), show (20 : ℕ) / 10 = 2 from rfl,
      show (20 : ℕ) % 10 = 0 from rfl, natToChars_lt_ten (by decide)]
    decide
  have n10 : natToStr 10 = "10" := by
    rw [natToStr, natToChars_ge_ten (by decide), show (10 : ℕ) / 10 = 1 from rfl,
      show (10 : ℕ) % 10 = 0 from rfl, natToChars_lt_ten (by decide)]
    decide
  have n20 : natToStr 20 = "20" := by
    rw [natToStr, natToChars_ge_ten (by decide), show (20 : ℕ) / 10 = 2 from rfl,
      show (20 : ℕ) % 10 = 0 from rfl, natToChars_lt_ten (by decide)]
    decide
  have h := citation_rendering_amended
    (fun i => if i = "a" then some ⟨"YA", "TA"⟩
              else if i = "b" then some ⟨"YB", "TB"⟩ else none)
    [("see ", CitationTok.mk "a" "10" false),
     (" and ", CitationTok.mk "b" "20.5" true),
     (" plus ", CitationTok.mk "zz" "3" false)]
    " done" (by decide) (by decide)
  rw [show buildMessage
      [("see ", CitationTok.mk "a" "10" false),
       (" and ", CitationTok.mk "b" "20.5" true),
       (" plus ", CitationTok.mk "zz" "3" false)] " done" =
      "see [video_id: a, time: 10] and [video_id: b, time: 20.5s] plus [video_id: zz, time: 3] done"
    from by decide] at h
  rw [h]
  dsimp only [specRender]
  rw [if_pos rfl, if_neg (by decide : ¬("b" : String) = "a"), if_pos rfl,
    if_neg (by decide : ¬("zz" : String) = "a"), if_neg (by decide : ¬("zz" : String) = "b")]
  dsimp only
  rw [e1, e2, f1, f2, g1, g2, n10, n20]
  decide
